import Mathlib

/-!
Verification of the rust-chess engine core against its specification.

The development shallowly embeds the engine's Rust sources:
* `src/transposition.rs` — the packed transposition table (TT),
* `src/search/history.rs` — the fixed 64-slot move-hash history,
* `src/search/sort.rs` — MVV-LVA move ordering,
* `src/evaluation/score.rs`, `src/evaluation/psqt.rs` — the evaluator,
* `src/search/context.rs`, `src/search/alpha_beta.rs` — the negamax search,
* `src/engine.rs` — the controller's search-response printing.

Machine integers are modelled as `Nat`/`Int` (with explicit `% 2^64` where
the Rust code wraps on `u64`), fallible code returns `Except Panic`, and the
external `chess` crate (board representation, move generation, Zobrist
hashing) is abstracted as a `ChessLib` interface; where a claim needs the
library's move application, it is modelled from the rules of chess, which
the spec assumes the library implements exactly.
-/

/-- Ways the Rust code can abort at runtime: an out-of-bounds index into the
64-slot history array, an invalid node-type / square while decoding a packed
TT entry, an `unwrap()` of `None`, or (model-only) exhaustion of the fuel
that bounds the quiescence recursion. -/
inductive Panic where
  | historyOverflow
  | ttDecode
  | noneUnwrap
  | outOfFuel
  deriving DecidableEq, Repr

/-- Decidable equality of `Except` results, for evaluating concrete
outcomes. -/
instance exceptDecEq {e : Type} {a : Type} [DecidableEq e] [DecidableEq a] :
    DecidableEq (Except e a)
  | .error x, .error y =>
      if h : x = y then .isTrue (by rw [h]) else
        .isFalse (fun he => h (by cases he; rfl))
  | .error _, .ok _ => .isFalse (fun he => Except.noConfusion he)
  | .ok _, .error _ => .isFalse (fun he => Except.noConfusion he)
  | .ok x, .ok y =>
      if h : x = y then .isTrue (by rw [h]) else
        .isFalse (fun he => h (by cases he; rfl))

/-- The two piece colors, as in the `chess` crate. -/
inductive Color where
  | white
  | black
  deriving DecidableEq, Repr

/-- Opposite color, modelling `!color` of the `chess` crate. -/
def Color.other : Color → Color
  | .white => .black
  | .black => .white

/-- The six piece kinds, in the `chess` crate's discriminant order
(`Pawn = 0, Knight, Bishop, Rook, Queen, King = 5`). -/
inductive Piece where
  | pawn
  | knight
  | bishop
  | rook
  | queen
  | king
  deriving DecidableEq, Repr

/-- The crate's `Piece as u8` discriminant. -/
def Piece.toIndex : Piece → Nat
  | .pawn => 0
  | .knight => 1
  | .bishop => 2
  | .rook => 3
  | .queen => 4
  | .king => 5

/-- A board square: rank and file indices 0–7, as in the `chess` crate
(`Square` index is `rank * 8 + file`). -/
structure Square where
  rank : Fin 8
  file : Fin 8
  deriving DecidableEq, Repr

/-- `Square::to_index()`. -/
def Square.toIndex (sq : Square) : Nat :=
  sq.rank.val * 8 + sq.file.val

/-- Inverse of `Square::to_index`, modelling `Square::new(sq as u8)` guarded
by the `assert!(sq < 64)` of `TTData::make_square`. -/
def Square.ofIndex (n : Nat) : Option Square :=
  if h : n < 64 then
    some ⟨⟨n / 8, by omega⟩, ⟨n % 8, by omega⟩⟩
  else
    none

/-- A chess move: source, destination and optional promotion piece, as the
`chess` crate's `ChessMove`. -/
structure ChessMove where
  source : Square
  dest : Square
  promotion : Option Piece
  deriving DecidableEq, Repr

/-- `ChessMove::default()`: a1 to a1, no promotion. -/
def ChessMove.default : ChessMove :=
  ⟨⟨0, 0⟩, ⟨0, 0⟩, none⟩

/-! ## Transposition table (`src/transposition.rs`)

The packed 64-bit entry layout, `pack_move`, `TTData::from`, `TT::get` and
`TT::set`.  All `u64` arithmetic is `Nat` with explicit `% 2^64` where the
Rust shifts can wrap. -/

/-- `NodeType` of `src/transposition.rs`. -/
inductive NodeType where
  | exact
  | lowerBound
  | upperBound
  deriving DecidableEq, Repr

/-- `NodeType::to_byte` (the enum discriminant). -/
def NodeType.toByte : NodeType → Nat
  | .exact => 0
  | .lowerBound => 1
  | .upperBound => 2

/-- `impl From<u64> for NodeType`, which panics on any value other than
0, 1, 2; the panic is modelled as `none`. -/
def NodeType.fromU64 : Nat → Option NodeType
  | 0 => some .exact
  | 1 => some .lowerBound
  | 2 => some .upperBound
  | _ => none

def PROMOTION_MASK : Nat := 0x000000000000000F
def DESTINATION_MASK : Nat := 0x0000000000000FF0
def ORIGIN_MASK : Nat := 0x00000000000FF000
def SCORE_MASK : Nat := 0x0000000FFFF00000
def DEPTH_MASK : Nat := 0x00000FF000000000
def TYPE_MASK : Nat := 0x0000F00000000000

def PROMOTION_SHIFT : Nat := 0
def DESTINATION_SHIFT : Nat := 4
def ORIGIN_SHIFT : Nat := 12
def SCORE_SHIFT : Nat := 20
def DEPTH_SHIFT : Nat := 36
def TYPE_SHIFT : Nat := 44

/-- The value of `2^64`, the `u64` modulus. -/
def U64_MOD : Nat := 18446744073709551616

/-- The Rust cast `score as u64` applied to an `i16` value: sign-extension
to 64 bits, i.e. the two's-complement representative modulo `2^64`. -/
def u64OfI16 (s : Int) : Nat :=
  (s % (U64_MOD : Int)).toNat

/-- The Rust cast `x as i16` applied to a value that fits in 16 bits:
reinterpret the low 16 bits as two's complement. -/
def i16OfU16 (n : Nat) : Int :=
  if n < 32768 then (n : Int) else (n : Int) - 65536

/-- `pack_move` of `src/transposition.rs`: encode promotion, destination,
origin, score, depth and node type into one `u64` by shift-and-or.  Note
the source computes `score as u64` (sign-extending) and shifts it left by
20 without masking, so all the `|` operands are combined as full 64-bit
words. -/
def pack_move (m : ChessMove) (score : Int) (depth : Nat) (t : NodeType) : Nat :=
  let promotion : Nat :=
    match m.promotion with
    | some .knight => 1
    | some .bishop => 2
    | some .rook => 3
    | some .queen => 4
    | some _ => 6
    | none => 6
  let dest := m.dest.toIndex
  let orig := m.source.toIndex
  let scoreBits := u64OfI16 score
  ((promotion <<< PROMOTION_SHIFT) % U64_MOD) |||
    ((dest <<< DESTINATION_SHIFT) % U64_MOD) |||
    ((orig <<< ORIGIN_SHIFT) % U64_MOD) |||
    ((scoreBits <<< SCORE_SHIFT) % U64_MOD) |||
    ((depth <<< DEPTH_SHIFT) % U64_MOD) |||
    ((t.toByte <<< TYPE_SHIFT) % U64_MOD)

/-- Decoded TT entry, `TTData` of `src/transposition.rs`. -/
structure TTData where
  depth : Nat
  score : Int
  m : ChessMove
  node_type : NodeType
  deriving DecidableEq, Repr

/-- `TTData::make_piece`: promotion nibble back to a piece (0 and 5–15 are
`None`). -/
def TTData.make_piece : Nat → Option Piece
  | 1 => some .knight
  | 2 => some .bishop
  | 3 => some .rook
  | 4 => some .queen
  | _ => none

/-- `impl From<u64> for TTData`: unpack the fields.  The square assertions
and the node-type match can panic, modelled as `none`. -/
def TTData.fromPacked (packed : Nat) : Option TTData :=
  let depth := (packed &&& DEPTH_MASK) >>> DEPTH_SHIFT
  let score := i16OfU16 ((packed &&& SCORE_MASK) >>> SCORE_SHIFT)
  match Square.ofIndex ((packed &&& DESTINATION_MASK) >>> DESTINATION_SHIFT),
      Square.ofIndex ((packed &&& ORIGIN_MASK) >>> ORIGIN_SHIFT),
      NodeType.fromU64 ((packed &&& TYPE_MASK) >>> TYPE_SHIFT) with
  | some dest, some orig, some node_type =>
      let promotion := TTData.make_piece ((packed &&& PROMOTION_MASK) >>> PROMOTION_SHIFT)
      some ⟨depth, score, ⟨orig, dest, promotion⟩, node_type⟩
  | _, _, _ => none

/-- One slot of the table, `TTEntry`. -/
structure TTEntry where
  hash : Nat
  value : Nat
  deriving DecidableEq, Repr

/-- `TTEntry::default()`. -/
def TTEntry.default : TTEntry := ⟨0, 0⟩

/-- The transposition table: `2^k` independently lockable slots indexed by
`hash & mask`.  The slot array is modelled as a total function from slot
index to entry; the per-slot mutex only serialises access and is invisible
to the single-threaded semantics. -/
structure TT where
  mask : Nat
  table : Nat → TTEntry

/-- `TT::new(size)` (the power-of-two check aside): all slots default. -/
def TT.new (size : Nat) : TT :=
  ⟨size - 1, fun _ => TTEntry.default⟩

/-- `TT::get`: read the slot at `hash & mask`; decode only on an exact hash
match.  A decode panic surfaces as `Except.error`. -/
def TT.get (t : TT) (hash : Nat) : Except Panic (Option TTData) :=
  let entry := t.table (hash &&& t.mask)
  if entry.hash = hash then
    match TTData.fromPacked entry.value with
    | some d => .ok (some d)
    | none => .error .ttDecode
  else
    .ok none

/-- Bound-kind classification performed inside `TT::set`. -/
def nodeTypeOf (score original_alpha beta : Int) : NodeType :=
  if score ≤ original_alpha then .upperBound
  else if score ≥ beta then .lowerBound
  else .exact

/-- `TT::set`: derive the bound kind from `(score, original_alpha, beta)`,
pack, and unconditionally overwrite the slot at `hash & mask`. -/
def TT.set (t : TT) (hash : Nat) (depth : Nat) (score : Int) (m : ChessMove)
    (original_alpha beta : Int) : TT :=
  let idx := hash &&& t.mask
  let node_type := nodeTypeOf score original_alpha beta
  ⟨t.mask, fun i => if i = idx then ⟨hash, pack_move m score depth node_type⟩ else t.table i⟩

/-- The table obtained by storing depth 5, score −1 under hash 1. -/
def ttC1 : TT :=
  (TT.new 4).set 1 5 (-1) ChessMove.default 0 10

/-- Claim C1 evaluated at the failing input: after `set(1, 5, −1, a1a1, 0, 10)`,
`get(1)` returns decoded data whose depth is 5, score is −1, move is a1a1 and
bound kind is the one derived from `(−1, 0, 10)` (an upper bound). -/
def ClaimC1At : Prop :=
  ttC1.get 1 =
    .ok (some ⟨5, -1, ChessMove.default, nodeTypeOf (-1) 0 10⟩)

/-- Claim C1 (code bug): at the failing input — hash 1, depth 5, score −1,
move a1a1, bounds (0, 10) — the store sign-extends the negative score across
the depth and type bit fields of the packed word, so the subsequent
`TT.get(1)` finds the depth field reading 255 instead of 5 and the type
nibble reading 15, on which `NodeType::from` panics; the round-trip claimed
by the spec fails. -/
theorem C1_set_get_negative_score_panics :
    ttC1.get 1 = .error .ttDecode ∧
    (pack_move ChessMove.default (-1) 5 .upperBound &&& DEPTH_MASK) >>> DEPTH_SHIFT = 255 ∧
    ¬ ClaimC1At := by
  have hget : ttC1.get 1 = Except.error Panic.ttDecode := rfl
  refine ⟨hget, rfl, ?_⟩
  intro h
  rw [ClaimC1At, hget] at h
  exact Except.noConfusion h

/-! ## Move history (`src/search/history.rs`)

A fixed `MAX_PLY = 64` slot array of position hashes behind an
`Rc<UnsafeCell<_>>`, plus a per-clone `len`.  The backing array is the
shared mutable state; `len` is copied by `clone()`.  `push` writes at index
`len` (an out-of-bounds index on a full array), `pop` never underflows, and
`seen_times` counts matches over the whole 64-slot array, `len`
notwithstanding. -/

/-- `MAX_PLY` of `src/search/alpha_beta.rs`. -/
def MAX_PLY : Nat := 64

/-- The shared backing array of `MoveHistory`: 64 hash slots, all 0 at
construction. -/
def HistArr : Type := Nat → Nat

/-- The fresh all-zero backing array. -/
def HistArr.zero : HistArr := fun _ => 0

/-- The write `(*self.moves.get())[self.len] = b_hash` performed by
`MoveHistory::push`: fails (index out of bounds) when `len` is not below
`MAX_PLY`. -/
def HistArr.writeAt (arr : HistArr) (len : Nat) (hash : Nat) : Option HistArr :=
  if len < MAX_PLY then some (fun i => if i = len then hash else arr i) else none

/-- `MoveHistory::seen_times`: occurrences of `hash` across the whole
64-slot array (stale slots beyond `len` included). -/
def HistArr.seen_times (arr : HistArr) (hash : Nat) : Nat :=
  (List.range MAX_PLY).countP (fun i => arr i = hash)

/-- One owner's view of a `MoveHistory`: the shared array and this clone's
`len`. -/
structure MoveHistory where
  arr : HistArr
  len : Nat

/-- `MoveHistory::new()`. -/
def MoveHistory.new : MoveHistory := ⟨HistArr.zero, 0⟩

/-- `MoveHistory::push`: unchecked write at index `len`, then `len += 1`;
`none` models the out-of-bounds panic on a full history. -/
def MoveHistory.push (h : MoveHistory) (hash : Nat) : Option MoveHistory :=
  match h.arr.writeAt h.len hash with
  | some arr => some ⟨arr, h.len + 1⟩
  | none => none

/-- `MoveHistory::pop`: returns `None` on an empty history, otherwise
decrements `len` and yields the value there. -/
def MoveHistory.pop (h : MoveHistory) : Option (Nat × MoveHistory) :=
  if h.len = 0 then none
  else some (h.arr (h.len - 1), ⟨h.arr, h.len - 1⟩)

/-- `MoveHistory::from_vec`: push every seeded hash in order. -/
def MoveHistory.from_vec (positions : List Nat) : Option MoveHistory :=
  positions.foldlM MoveHistory.push MoveHistory.new

/-! ## Evaluator constants (`src/evaluation/psqt.rs`)

Material values and the piece-square tables, plus `eval_position` and
`eval_with_piece`.  Scores are `i16` in the source; they are modelled as
`Int` (all values involved stay far within the `i16` range). -/

def PAWN : Int := 100
def KNIGHT : Int := 320
def BISHOP : Int := 330
def ROOK : Int := 500
def QUEEN : Int := 900
def KING : Int := 20000

def PAWN_TABLE : List Int := [
  0, 0, 0, 0, 0, 0, 0, 0, 50, 50, 50, 50, 50, 50, 50, 50, 10, 10, 20, 30, 30, 20, 10, 10, 5, 5,
  10, 25, 25, 10, 5, 5, 0, 0, 0, 20, 20, 0, 0, 0, 5, -5, -10, 0, 0, -10, -5, 5, 5, 10, 10, -20,
  -20, 10, 10, 5, 0, 0, 0, 0, 0, 0, 0, 0]

def KNIGHT_TABLE : List Int := [
  -50, -40, -30, -30, -30, -30, -40, -50, -40, -20, 0, 0, 0, 0, -20, -40, -30, 0, 10, 15, 15, 10,
  0, -30, -30, 5, 15, 20, 20, 15, 5, -30, -30, 0, 15, 20, 20, 15, 0, -30, -30, 5, 10, 15, 15, 10,
  5, -30, -40, -20, 0, 5, 5, 0, -20, -40, -50, -40, -30, -30, -30, -30, -40, -50]

def BISHOP_TABLE : List Int := [
  -20, -10, -10, -10, -10, -10, -10, -20, -10, 0, 0, 0, 0, 0, 0, -10, -10, 0, 5, 10, 10, 5, 0,
  -10, -10, 5, 5, 10, 10, 5, 5, -10, -10, 0, 10, 10, 10, 10, 0, -10, -10, 10, 10, 10, 10, 10, 10,
  -10, -10, 5, 0, 0, 0, 0, 5, -10, -20, -10, -10, -10, -10, -10, -10, -20]

def ROOK_TABLE : List Int := [
  0, 0, 0, 0, 0, 0, 0, 0, 5, 10, 10, 10, 10, 10, 10, 5, -5, 0, 0, 0, 0, 0, 0, -5, -5, 0, 0, 0, 0,
  0, 0, -5, -5, 0, 0, 0, 0, 0, 0, -5, -5, 0, 0, 0, 0, 0, 0, -5, -5, 0, 0, 0, 0, 0, 0, -5, 0, 0,
  0, 5, 5, 0, 0, 0]

def QUEEN_TABLE : List Int := [
  -20, -10, -10, -5, -5, -10, -10, -20, -10, 0, 0, 0, 0, 0, 0, -10, -10, 0, 5, 5, 5, 5, 0, -10,
  -5, 0, 5, 5, 5, 5, 0, -5, 0, 0, 5, 5, 5, 5, 0, -5, -10, 5, 5, 5, 5, 5, 0, -10, -10, 0, 5, 0, 0,
  0, 0, -10, -20, -10, -10, -5, -5, -10, -10, -20]

def KING_TABLE_MID : List Int := [
  -30, -40, -40, -50, -50, -40, -40, -30, -30, -40, -40, -50, -50, -40, -40, -30, -30, -40, -40,
  -50, -50, -40, -40, -30, -30, -40, -40, -50, -50, -40, -40, -30, -20, -30, -30, -40, -40, -30,
  -30, -20, -10, -20, -20, -20, -20, -20, -20, -10, 20, 20, 0, 0, 0, 0, 20, 20, 20, 30, 10, 0, 0,
  10, 30, 20]

/-- `piece_value` of `src/evaluation/score.rs`. -/
def piece_value : Piece → Int
  | .pawn => PAWN
  | .knight => KNIGHT
  | .bishop => BISHOP
  | .rook => ROOK
  | .queen => QUEEN
  | .king => KING

/-- `flip_rank` of `src/evaluation/psqt.rs`: `NUM_RANKS - r - 1`. -/
def flip_rank (r : Fin 8) : Nat := 8 - r.val - 1

/-- `PieceTable::eval_position`: index the 64-entry table, flipping the rank
for White. -/
def eval_position (tbl : List Int) (color : Color) (rank file : Fin 8) : Int :=
  let rc :=
    if color = Color.white then flip_rank rank * 8 + file.val
    else rank.val * 8 + file.val
  tbl.getD rc 0

/-- `PieceTable::eval_with_piece`: material value plus table value. -/
def eval_with_piece (tbl : List Int) (piece : Piece) (color : Color) (rank file : Fin 8) : Int :=
  piece_value piece + eval_position tbl color rank file

/-- `score_piece_position` of `src/evaluation/score.rs`: dispatch to the
piece's table. -/
def score_piece_position (piece : Piece) (color : Color) (rank file : Fin 8) : Int :=
  match piece with
  | .pawn => eval_with_piece PAWN_TABLE piece color rank file
  | .knight => eval_with_piece KNIGHT_TABLE piece color rank file
  | .bishop => eval_with_piece BISHOP_TABLE piece color rank file
  | .rook => eval_with_piece ROOK_TABLE piece color rank file
  | .queen => eval_with_piece QUEEN_TABLE piece color rank file
  | .king => eval_with_piece KING_TABLE_MID piece color rank file

/-! ## The external board library

The spec (section 1) places move generation, board representation and
Zobrist hashing in an external library with bitboard-accurate legal-move
enumeration.  The search and sorting code only consumes the interface
below, so the theorems about them quantify over every implementation of
it. -/

/-- Interface of the external `chess` crate as consumed by this engine:
piece/color lookup, legal move enumeration, move application, Zobrist hash,
check detection and side to move. -/
structure ChessLib where
  Board : Type
  piece_on : Board → Square → Option Piece
  color_on : Board → Square → Option Color
  legal_moves : Board → List ChessMove
  make_move_new : Board → ChessMove → Board
  get_hash : Board → Nat
  in_check : Board → Bool
  side_to_move : Board → Color

/-- `is_capture` of `src/util.rs`: the destination square is occupied on the
combined bitboard (either color). -/
def is_capture (L : ChessLib) (m : ChessMove) (b : L.Board) : Bool :=
  (L.piece_on b m.dest).isSome

/-! ## Move ordering (`src/search/sort.rs`) -/

/-- The `MVV_LVA[victim][attacker]` priority table (7 × 7). -/
def MVV_LVA : List (List Nat) := [
  [15, 14, 13, 12, 11, 10, 0],
  [25, 24, 23, 22, 21, 20, 0],
  [35, 34, 33, 32, 31, 30, 0],
  [45, 44, 43, 42, 41, 40, 0],
  [55, 54, 53, 52, 51, 50, 0],
  [0, 0, 0, 0, 0, 0, 0],
  [0, 0, 0, 0, 0, 0, 0]]

/-- `get_mvv_lva_score`. -/
def get_mvv_lva_score (victim attacker : Nat) : Nat :=
  (MVV_LVA.getD victim []).getD attacker 0

/-- The sort key `get_sorted_moves` computes for a move: victim and
aggressor piece discriminants (6 when the square is empty) fed through the
MVV-LVA table. -/
def mvvKey (L : ChessLib) (b : L.Board) (m : ChessMove) : Nat :=
  let victim := match L.piece_on b m.dest with
    | some p => p.toIndex
    | none => 6
  let attacker := match L.piece_on b m.source with
    | some p => p.toIndex
    | none => 6
  get_mvv_lva_score victim attacker

/-- Insert into a descending-sorted list, before the first element whose key
is not larger: the placement Rust's stable `sort_by` gives an element
relative to an already-sorted tail. -/
def insertDesc (key : α → Nat) (a : α) : List α → List α
  | [] => [a]
  | b :: t => if key a < key b then b :: insertDesc key a t else a :: b :: t

/-- Stable sort by descending key, extensionally equal to Rust's stable
`slice::sort_by` with comparator `key(b).cmp(&key(a))`. -/
def sortDesc (key : α → Nat) : List α → List α
  | [] => []
  | a :: t => insertDesc key a (sortDesc key t)

/-- `get_sorted_moves`: the library's legal moves, stably sorted by
descending MVV-LVA priority. -/
def get_sorted_moves (L : ChessLib) (b : L.Board) : List ChessMove :=
  sortDesc (mvvKey L b) (L.legal_moves b)

/-! ### Facts about the stable descending sort -/

theorem insertDesc_perm (key : α → Nat) (a : α) :
    ∀ l : List α, (insertDesc key a l).Perm (a :: l)
  | [] => List.Perm.refl _
  | b :: t => by
      unfold insertDesc
      by_cases h : key a < key b
      · simp only [if_pos h]
        exact ((insertDesc_perm key a t).cons b).trans (List.Perm.swap a b t)
      · simp only [if_neg h]
        exact List.Perm.refl _

theorem sortDesc_perm (key : α → Nat) :
    ∀ l : List α, (sortDesc key l).Perm l
  | [] => List.Perm.refl _
  | a :: t => by
      unfold sortDesc
      exact ((insertDesc_perm key a (sortDesc key t)).trans
        ((sortDesc_perm key t).cons a))

theorem insertDesc_pairwise (key : α → Nat) (a : α) :
    ∀ l : List α, l.Pairwise (fun x y => key y ≤ key x) →
      (insertDesc key a l).Pairwise (fun x y => key y ≤ key x)
  | [], _ => by simp [insertDesc]
  | b :: t, hp => by
      rcases List.pairwise_cons.mp hp with ⟨hb, ht⟩
      unfold insertDesc
      by_cases h : key a < key b
      · simp only [if_pos h]
        refine List.pairwise_cons.mpr ⟨?_, insertDesc_pairwise key a t ht⟩
        intro y hy
        rcases List.mem_cons.mp ((insertDesc_perm key a t).mem_iff.mp hy) with hy1 | hy1
        · exact hy1 ▸ Nat.le_of_lt h
        · exact hb y hy1
      · simp only [if_neg h]
        refine List.pairwise_cons.mpr ⟨?_, hp⟩
        intro y hy
        rcases List.mem_cons.mp hy with hy1 | hy1
        · exact hy1 ▸ Nat.le_of_not_lt h
        · exact Nat.le_trans (hb y hy1) (Nat.le_of_not_lt h)

theorem sortDesc_pairwise (key : α → Nat) :
    ∀ l : List α, (sortDesc key l).Pairwise (fun x y => key y ≤ key x)
  | [] => List.Pairwise.nil
  | a :: t => insertDesc_pairwise key a (sortDesc key t) (sortDesc_pairwise key t)

theorem insertDesc_filter_ne (key : α → Nat) (a : α) (k : Nat)
    (h : (key a == k) = false) :
    ∀ l : List α,
      (insertDesc key a l).filter (fun x => key x == k) =
        l.filter (fun x => key x == k)
  | [] => by simp [insertDesc, h]
  | b :: t => by
      unfold insertDesc
      by_cases hlt : key a < key b
      · simp only [if_pos hlt, List.filter_cons]
        rw [insertDesc_filter_ne key a k h t]
      · simp only [if_neg hlt]
        simp [List.filter_cons, h]

theorem insertDesc_filter_eq (key : α → Nat) (a : α) (k : Nat)
    (h : (key a == k) = true) :
    ∀ l : List α, l.Pairwise (fun x y => key y ≤ key x) →
      (insertDesc key a l).filter (fun x => key x == k) =
        a :: l.filter (fun x => key x == k)
  | [], _ => by simp [insertDesc, h]
  | b :: t, hp => by
      rcases List.pairwise_cons.mp hp with ⟨_, ht⟩
      unfold insertDesc
      by_cases hlt : key a < key b
      · have hak : key a = k := by simpa using h
        have hbk : (key b == k) = false := by
          have : key b ≠ k := by omega
          simpa using this
        simp only [if_pos hlt, List.filter_cons, hbk, cond_false]
        rw [insertDesc_filter_eq key a k h t ht]
        simp [hbk]
      · simp only [if_neg hlt]
        simp [List.filter_cons, h]

theorem sortDesc_filter (key : α → Nat) (k : Nat) :
    ∀ l : List α,
      (sortDesc key l).filter (fun x => key x == k) =
        l.filter (fun x => key x == k)
  | [] => rfl
  | a :: t => by
      unfold sortDesc
      rcases hk : (key a == k) with _ | _
      · rw [insertDesc_filter_ne key a k hk, sortDesc_filter key k t,
          List.filter_cons, hk]
        simp
      · rw [insertDesc_filter_eq key a k hk (sortDesc key t) (sortDesc_pairwise key t),
          sortDesc_filter key k t, List.filter_cons, hk]
        simp

theorem pairwise_split_at (key : α → Nat) (p : α → Bool) (c : Nat) :
    ∀ l : List α, l.Pairwise (fun x y => key y ≤ key x) →
      (∀ x ∈ l, p x = true ↔ c ≤ key x) →
      l = l.filter p ++ l.filter (fun x => !(p x))
  | [], _, _ => rfl
  | a :: t, hp, hc => by
      rcases List.pairwise_cons.mp hp with ⟨ha, ht⟩
      have ih := pairwise_split_at key p c t ht
        (fun x hx => hc x (List.mem_cons_of_mem a hx))
      rcases hpa : p a with _ | _
      · have hiff := hc a (List.mem_cons_self a t)
        rw [hpa] at hiff
        have hka : key a < c :=
          Nat.lt_of_not_le (fun hle => Bool.false_ne_true (hiff.mpr hle))
        have hall : ∀ y ∈ t, p y = false := by
          intro y hy
          rcases hpy : p y with _ | _
          · rfl
          · exact absurd ((hc y (List.mem_cons_of_mem a hy)).mp hpy)
              (Nat.not_le_of_lt (Nat.lt_of_le_of_lt (ha y hy) hka))
        have hfp : (a :: t).filter p = [] := by
          rw [List.filter_eq_nil_iff]
          intro y hy
          rcases List.mem_cons.mp hy with h1 | h1
          · subst h1
            simp [hpa]
          · simp [hall y h1]
        have hfn : (a :: t).filter (fun x => !(p x)) = a :: t := by
          rw [List.filter_eq_self]
          intro y hy
          rcases List.mem_cons.mp hy with h1 | h1
          · subst h1
            simp [hpa]
          · simp [hall y h1]
        rw [hfp, hfn]
        rfl
      · simp only [List.filter_cons, hpa, Bool.not_true, if_true, if_false,
          cond_true, cond_false]
        simpa using congrArg (a :: ·) ih

/-- Row 6 of `MVV_LVA` (victim `None`) is identically zero. -/
theorem mvv_row6_zero (a : Nat) : get_mvv_lva_score 6 a = 0 := by
  rcases Nat.lt_or_ge a 7 with h | h
  · interval_cases a <;> rfl
  · unfold get_mvv_lva_score
    exact List.getD_eq_default _ _ (by simp [MVV_LVA]; omega)

/-- A capture of any non-king victim scores at least 10 in the MVV-LVA
table, whoever the aggressor is. -/
theorem mvv_capture_ge (v a : Piece) (h : v ≠ Piece.king) :
    10 ≤ get_mvv_lva_score v.toIndex a.toIndex := by
  cases v <;> cases a <;> revert h <;> decide

/-- The key of a non-capture move is zero. -/
theorem mvvKey_noncapture (L : ChessLib) (b : L.Board) (m : ChessMove)
    (h : is_capture L m b = false) : mvvKey L b m = 0 := by
  unfold mvvKey
  unfold is_capture at h
  rcases hd : L.piece_on b m.dest with _ | p
  · simp only [hd]
    exact mvv_row6_zero _
  · rw [hd] at h
    simp at h

/-- The key of a legal capture is at least 10, provided the source square is
occupied and the victim is not a king (both guaranteed for the legal moves
of a chess position). -/
theorem mvvKey_capture_ge (L : ChessLib) (b : L.Board) (m : ChessMove)
    (hcap : is_capture L m b = true)
    (hsrc : (L.piece_on b m.source).isSome = true)
    (hking : L.piece_on b m.dest ≠ some Piece.king) :
    10 ≤ mvvKey L b m := by
  unfold mvvKey
  unfold is_capture at hcap
  rcases hd : L.piece_on b m.dest with _ | v
  · rw [hd] at hcap
    simp at hcap
  · rcases hs : L.piece_on b m.source with _ | p
    · rw [hs] at hsrc
      simp at hsrc
    · simp only [hd, hs]
      refine mvv_capture_ge v p ?_
      intro hv
      exact hking (hv ▸ hd)

/-- Claim C8: `get_sorted_moves(P)` is a permutation of the legal moves of
`P`, pairwise ordered by descending MVV-LVA key; captures (destination
occupied) form a prefix and non-captures a suffix whenever every legal move
leaves from an occupied square and never lands on a king; non-captures get
key 0; the relative order of equal-key moves is exactly their order in the
legal-move list (stability); and for victims 0–4 and aggressors 0–5 the
table key is `10·(victim+1) + (5 − aggressor)`, i.e. ordered by victim
class then aggressor class. -/
theorem C8_get_sorted_moves_mvv_lva (L : ChessLib) (b : L.Board)
    (hsrc : ∀ m ∈ L.legal_moves b, (L.piece_on b m.source).isSome = true)
    (hking : ∀ m ∈ L.legal_moves b, L.piece_on b m.dest ≠ some Piece.king) :
    (get_sorted_moves L b).Perm (L.legal_moves b) ∧
    (get_sorted_moves L b).Pairwise (fun x y => mvvKey L b y ≤ mvvKey L b x) ∧
    get_sorted_moves L b =
      (get_sorted_moves L b).filter (fun m => is_capture L m b) ++
        (get_sorted_moves L b).filter (fun m => !(is_capture L m b)) ∧
    (∀ m ∈ L.legal_moves b, is_capture L m b = false → mvvKey L b m = 0) ∧
    (∀ k, (get_sorted_moves L b).filter (fun m => mvvKey L b m == k) =
      (L.legal_moves b).filter (fun m => mvvKey L b m == k)) ∧
    (∀ v < 5, ∀ a < 6, get_mvv_lva_score v a = 10 * (v + 1) + (5 - a)) := by
  have hperm : (get_sorted_moves L b).Perm (L.legal_moves b) :=
    sortDesc_perm (mvvKey L b) (L.legal_moves b)
  refine ⟨hperm, sortDesc_pairwise (mvvKey L b) (L.legal_moves b), ?_, ?_, ?_, by decide⟩
  · refine pairwise_split_at (mvvKey L b) (fun m => is_capture L m b) 10
      (get_sorted_moves L b)
      (sortDesc_pairwise (mvvKey L b) (L.legal_moves b)) ?_
    intro m hm
    have hm2 : m ∈ L.legal_moves b := hperm.mem_iff.mp hm
    constructor
    · intro hcap
      exact mvvKey_capture_ge L b m hcap (hsrc m hm2) (hking m hm2)
    · intro hge
      rcases hcap : is_capture L m b with _ | _
      · have := mvvKey_noncapture L b m hcap
        omega
      · exact hcap
  · intro m _ h
    exact mvvKey_noncapture L b m h
  · intro k
    exact sortDesc_filter (mvvKey L b) k (L.legal_moves b)

/-- A three-piece position for exercising the move ordering: a white rook
on a1, a white pawn on a2, a black queen on b4, with three pseudo-moves
supplied by the library in a fixed order. -/
def c8Lib : ChessLib where
  Board := Unit
  piece_on := fun _ sq =>
    if sq = ⟨0, 0⟩ then some Piece.rook
    else if sq = ⟨1, 0⟩ then some Piece.pawn
    else if sq = ⟨3, 1⟩ then some Piece.queen
    else none
  color_on := fun _ sq =>
    if sq = ⟨0, 0⟩ then some Color.white
    else if sq = ⟨1, 0⟩ then some Color.white
    else if sq = ⟨3, 1⟩ then some Color.black
    else none
  legal_moves := fun _ =>
    [⟨⟨0, 0⟩, ⟨0, 4⟩, none⟩, ⟨⟨1, 0⟩, ⟨3, 1⟩, none⟩, ⟨⟨0, 0⟩, ⟨0, 1⟩, none⟩]
  make_move_new := fun b _ => b
  get_hash := fun _ => 0
  in_check := fun _ => false
  side_to_move := fun _ => Color.white

/-- Witness for C8: the sorted-moves properties hold at the concrete
three-move position, whose hypotheses evaluate by `decide`. -/
theorem C8_get_sorted_moves_mvv_lva_witness :
    (get_sorted_moves c8Lib ()).Perm (c8Lib.legal_moves ()) ∧
    (get_sorted_moves c8Lib ()).Pairwise
      (fun x y => mvvKey c8Lib () y ≤ mvvKey c8Lib () x) ∧
    get_sorted_moves c8Lib () =
      (get_sorted_moves c8Lib ()).filter (fun m => is_capture c8Lib m ()) ++
        (get_sorted_moves c8Lib ()).filter (fun m => !(is_capture c8Lib m ())) ∧
    (∀ m ∈ c8Lib.legal_moves (), is_capture c8Lib m () = false → mvvKey c8Lib () m = 0) ∧
    (∀ k, (get_sorted_moves c8Lib ()).filter (fun m => mvvKey c8Lib () m == k) =
      (c8Lib.legal_moves ()).filter (fun m => mvvKey c8Lib () m == k)) ∧
    (∀ v < 5, ∀ a < 6, get_mvv_lva_score v a = 10 * (v + 1) + (5 - a)) :=
  C8_get_sorted_moves_mvv_lva c8Lib () (by decide) (by decide)

/-! ## Evaluation over a board (`src/evaluation/score.rs`) -/

/-- Enumeration of the 64 squares in the order of `score_board_position`'s
nested rank/file loops. -/
def boardSquares : List Square :=
  (List.finRange 8).flatMap (fun r => (List.finRange 8).map (fun f => ⟨r, f⟩))

/-- The contribution one square makes to the accumulator of color `c` in
`score_board_position`: the piece's `score_piece_position` when the square
holds a piece of color `c`, zero otherwise. -/
def squareContrib (L : ChessLib) (b : L.Board) (c : Color) (sq : Square) : Int :=
  match L.piece_on b sq, L.color_on b sq with
  | some p, some pc => if pc = c then score_piece_position p pc sq.rank sq.file else 0
  | _, _ => 0

/-- `score_board_position`: sum material-plus-table values of every occupied
square into a `(white, black)` pair. -/
def score_board_position (L : ChessLib) (b : L.Board) : Int × Int :=
  ((boardSquares.map (squareContrib L b Color.white)).sum,
    (boardSquares.map (squareContrib L b Color.black)).sum)

/-- `PieceEvent` of `src/evaluation/score.rs`. -/
structure PieceEvent where
  piece : Piece
  sq : Square
  deriving DecidableEq, Repr

/-- `MoveEvents`: optional promotion and capture events. -/
structure MoveEvents where
  promotion : Option PieceEvent
  capture : Option PieceEvent
  deriving DecidableEq, Repr

/-- `MoveInfo` (the `from` field is spelt `fromSq` since `from` is reserved
in Lean, and likewise `to` is `toSq`). -/
structure MoveInfo where
  color_to_move : Color
  move_events : MoveEvents
  fromSq : Square
  toSq : Square
  piece : Piece
  deriving DecidableEq, Repr

/-- `MoveInfo::from_move`: read the moving piece and color off the source
square (an `unwrap`, hence fallible), and record promotion/capture events
from the move's promotion piece and the destination occupant. -/
def MoveInfo.from_move (L : ChessLib) (m : ChessMove) (b : L.Board) :
    Except Panic MoveInfo :=
  match L.piece_on b m.source, L.color_on b m.source with
  | some piece, some color =>
      .ok ⟨color,
        ⟨m.promotion.map (fun p => ⟨p, m.dest⟩),
          (L.piece_on b m.dest).map (fun p => ⟨p, m.dest⟩)⟩,
        m.source, m.dest, piece⟩
  | _, _ => .error .noneUnwrap

/-- `score_capture_diff`: minus the captured piece's value at its square
under the opponent's color (zero without a capture). -/
def score_capture_diff (info : MoveInfo) : Int :=
  match info.move_events.capture with
  | some c =>
      -(score_piece_position c.piece info.color_to_move.other c.sq.rank c.sq.file)
  | none => 0

/-- `score_position_diff`: the mover's positional change, substituting the
promotion piece at the destination when promoting. -/
def score_position_diff (info : MoveInfo) : Int :=
  let start_score :=
    score_piece_position info.piece info.color_to_move info.fromSq.rank info.fromSq.file
  match info.move_events.promotion with
  | some promo =>
      score_piece_position promo.piece info.color_to_move promo.sq.rank promo.sq.file -
        start_score
  | none =>
      score_piece_position info.piece info.color_to_move info.toSq.rank info.toSq.file -
        start_score

/-! ## Search context (`src/search/context.rs`)

The per-frame record.  The `Rc`-shared history backing array is threaded
separately through the search as mutable state; the context carries the
per-clone `len`.  The atomic stop flag is modelled as a pure predicate on
the node counter sampled when the flag is read; the absolute deadline of
`task_must_stop` is folded into the same predicate. -/

structure SearchContext (L : ChessLib) where
  board : L.Board
  hash : Nat
  histLen : Nat
  white_position : Int
  black_position : Int
  signal : Nat → Bool
  depth : Nat

/-- `SearchContext::board_score`: own side minus opponent side for the side
to move. -/
def SearchContext.board_score (L : ChessLib) (ctx : SearchContext L) : Int :=
  if L.side_to_move ctx.board = Color.white then
    ctx.white_position - ctx.black_position
  else
    ctx.black_position - ctx.white_position

/-- `SearchContext::apply_move_new`: compute the move's diffs, credit them to
the mover's and opponent's accumulators, apply the move to the board, and
clone the history — the clone copies the parent's `len` before the parent
pushes (`apply_move_new` is called before `ctx.history.push` in the search
loop), and `depth` increases by one. -/
def SearchContext.apply_move_new (L : ChessLib) (ctx : SearchContext L)
    (m : ChessMove) : Except Panic (SearchContext L) :=
  (MoveInfo.from_move L m ctx.board).map fun info =>
    let position_diff := score_position_diff info
    let capture_diff := score_capture_diff info
    let white_position :=
      if info.color_to_move = Color.white then ctx.white_position + position_diff
      else ctx.white_position + capture_diff
    let black_position :=
      if info.color_to_move = Color.white then ctx.black_position + capture_diff
      else ctx.black_position + position_diff
    { board := L.make_move_new ctx.board m
      hash := L.get_hash (L.make_move_new ctx.board m)
      histLen := ctx.histLen
      white_position := white_position
      black_position := black_position
      signal := ctx.signal
      depth := ctx.depth + 1 }

/-! ## A concrete board for the evaluation claims

`GameBoard` instantiates the external library interface with an explicit
piece placement.  Its move application is modelled from the spec: section 1
assumes a library with "per-move application producing a new immutable
board", i.e. the standard rules of chess, including the rook displacement
of castling and the en-passant pawn removal. -/

/-- Piece placement plus side to move. -/
structure GameBoard where
  placement : Square → Option (Piece × Color)
  sideToMove : Color

/-- Point update of a placement. -/
def setSq (pl : Square → Option (Piece × Color)) (sq : Square)
    (v : Option (Piece × Color)) : Square → Option (Piece × Color) :=
  fun s => if s = sq then v else pl s

/-- Modelled from the spec: the external `chess` crate's
`Board::make_move_new`, which the spec assumes applies a legal move by the
rules of chess.  The moving (or promoted) piece goes to the destination;
a pawn moving diagonally onto an empty square captures en passant (the pawn
behind the destination disappears); a king moving two files castles (the
rook jumps over); the side to move flips. -/
def GameBoard.make_move_new (b : GameBoard) (m : ChessMove) : GameBoard :=
  match b.placement m.source with
  | none => b
  | some (p, c) =>
      let moved := m.promotion.getD p
      let base := setSq (setSq b.placement m.source none) m.dest (some (moved, c))
      let afterEp :=
        if p = Piece.pawn ∧ m.source.file ≠ m.dest.file ∧ b.placement m.dest = none then
          setSq base ⟨m.source.rank, m.dest.file⟩ none
        else base
      let afterCastle :=
        if p = Piece.king ∧ m.source.file.val = 4 ∧ m.dest.file.val = 6 then
          setSq (setSq afterEp ⟨m.source.rank, 7⟩ none) ⟨m.source.rank, 5⟩
            (some (Piece.rook, c))
        else if p = Piece.king ∧ m.source.file.val = 4 ∧ m.dest.file.val = 2 then
          setSq (setSq afterEp ⟨m.source.rank, 0⟩ none) ⟨m.source.rank, 3⟩
            (some (Piece.rook, c))
        else afterEp
      ⟨afterCastle, b.sideToMove.other⟩

/-- The external-library interface instantiated at `GameBoard`.  Only the
fields the evaluation claims consume are meaningful; legal-move enumeration,
hashing and check detection play no part in them. -/
def boardLib : ChessLib where
  Board := GameBoard
  piece_on := fun b sq => (b.placement sq).map Prod.fst
  color_on := fun b sq => (b.placement sq).map Prod.snd
  legal_moves := fun _ => []
  make_move_new := GameBoard.make_move_new
  get_hash := fun _ => 0
  in_check := fun _ => false
  side_to_move := fun b => b.sideToMove

/-- The moving piece at a move's source square (meaningful when occupied). -/
def srcPiece (b : GameBoard) (m : ChessMove) : Piece :=
  ((b.placement m.source).getD (Piece.pawn, Color.white)).1

/-- The moving piece's color at a move's source square. -/
def srcColor (b : GameBoard) (m : ChessMove) : Color :=
  ((b.placement m.source).getD (Piece.pawn, Color.white)).2

/-- A `simple` legal move: source occupied, destination distinct and not
occupied by the mover's own side, and neither the en-passant nor the
castling special case.  Every legal chess move that is not a castle and not
an en-passant capture satisfies this. -/
def SimpleMove (b : GameBoard) (m : ChessMove) : Prop :=
  m.source ≠ m.dest ∧
  (b.placement m.source).isSome = true ∧
  (b.placement m.dest = none ∨
    (b.placement m.dest).map Prod.snd = some (srcColor b m).other) ∧
  ¬(srcPiece b m = Piece.pawn ∧ m.source.file ≠ m.dest.file ∧
      b.placement m.dest = none) ∧
  ¬(srcPiece b m = Piece.king ∧ m.source.file.val = 4 ∧
      (m.dest.file.val = 6 ∨ m.dest.file.val = 2))

/-- A sequence of moves, each simple and legal for the board it is applied
to. -/
def SimpleSeq : GameBoard → List ChessMove → Prop
  | _, [] => True
  | b, m :: ms => SimpleMove b m ∧ SimpleSeq (b.make_move_new m) ms

instance SimpleMove.decidable (b : GameBoard) (m : ChessMove) :
    Decidable (SimpleMove b m) := by
  unfold SimpleMove
  infer_instance

instance SimpleSeq.decidable : (b : GameBoard) → (ms : List ChessMove) →
    Decidable (SimpleSeq b ms)
  | _, [] => .isTrue trivial
  | b, m :: ms =>
      have : Decidable (SimpleSeq (b.make_move_new m) ms) :=
        SimpleSeq.decidable (b.make_move_new m) ms
      inferInstanceAs (Decidable (_ ∧ _))

/-- `SearchContext::from_board` at a `GameBoard`, seeding the incremental
pair from `score_board_position` (hash, deadline and flag are irrelevant to
the evaluation claims). -/
def initCtx (b : GameBoard) : SearchContext boardLib :=
  { board := b
    hash := 0
    histLen := 0
    white_position := (score_board_position boardLib b).1
    black_position := (score_board_position boardLib b).2
    signal := fun _ => false
    depth := 0 }

/-- Fold `apply_move_new` over a move sequence. -/
def applyMoves (ctx : SearchContext boardLib) :
    List ChessMove → Except Panic (SearchContext boardLib)
  | [] => .ok ctx
  | m :: ms => (SearchContext.apply_move_new boardLib ctx m).bind (fun c => applyMoves c ms)

/-! ### The incremental-evaluation invariant -/

/-- Contribution of one square of a placement to one color's accumulator. -/
def placeContrib (pl : Square → Option (Piece × Color)) (c : Color) (sq : Square) : Int :=
  match pl sq with
  | some (p, pc) => if pc = c then score_piece_position p pc sq.rank sq.file else 0
  | none => 0

theorem squareContrib_boardLib (b : GameBoard) (c : Color) (sq : Square) :
    squareContrib boardLib b c sq = placeContrib b.placement c sq := by
  unfold squareContrib placeContrib
  rcases h : b.placement sq with _ | ⟨p, pc⟩ <;>
    simp [boardLib, h]

theorem score_board_position_boardLib (b : GameBoard) :
    score_board_position boardLib b =
      ((boardSquares.map (placeContrib b.placement Color.white)).sum,
        (boardSquares.map (placeContrib b.placement Color.black)).sum) := by
  unfold score_board_position
  rw [List.map_congr_left (fun sq _ => squareContrib_boardLib b Color.white sq),
    List.map_congr_left (fun sq _ => squareContrib_boardLib b Color.black sq)]

theorem mem_boardSquares (sq : Square) : sq ∈ boardSquares :=
  List.mem_flatMap.mpr
    ⟨sq.rank, List.mem_finRange _,
      List.mem_map.mpr ⟨sq.file, List.mem_finRange _, rfl⟩⟩

theorem boardSquares_nodup : boardSquares.Nodup := by decide

theorem sum_map_update (f g : Square → Int) (sq : Square)
    (h : ∀ x, x ≠ sq → f x = g x) :
    ∀ l : List Square, l.Nodup → sq ∈ l →
      (l.map g).sum = (l.map f).sum + (g sq - f sq)
  | [], _, hm => absurd hm (List.not_mem_nil sq)
  | a :: t, hnd, hm => by
      rcases List.nodup_cons.mp hnd with ⟨hna, hndt⟩
      rcases List.mem_cons.mp hm with h1 | h1
      · subst h1
        have ht : t.map g = t.map f :=
          List.map_congr_left (fun x hx => (h x (fun he => hna (he ▸ hx))).symm)
        simp only [List.map_cons, List.sum_cons, ht]
        omega
      · have hasq : a ≠ sq := fun he => hna (he ▸ h1)
        have hfa : f a = g a := h a hasq
        have ih := sum_map_update f g sq h t hndt h1
        simp only [List.map_cons, List.sum_cons, ih, hfa]
        omega

theorem from_move_boardLib (b : GameBoard) (m : ChessMove) (p : Piece) (c : Color)
    (h : b.placement m.source = some (p, c)) :
    MoveInfo.from_move boardLib m b =
      Except.ok ⟨c, ⟨m.promotion.map (fun q => ⟨q, m.dest⟩),
        (b.placement m.dest).map (fun q => ⟨q.1, m.dest⟩)⟩, m.source, m.dest, p⟩ := by
  unfold MoveInfo.from_move
  have hp : boardLib.piece_on b m.source = some p := by
    show (b.placement m.source).map Prod.fst = some p
    rw [h]
    rfl
  have hc : boardLib.color_on b m.source = some c := by
    show (b.placement m.source).map Prod.snd = some c
    rw [h]
    rfl
  rw [hp, hc]
  have hcap : (boardLib.piece_on b m.dest).map (fun q => PieceEvent.mk q m.dest) =
      (b.placement m.dest).map (fun q => ⟨q.1, m.dest⟩) := by
    show ((b.placement m.dest).map Prod.fst).map (fun q => PieceEvent.mk q m.dest) = _
    rcases b.placement m.dest with _ | q
    · rfl
    · rfl
  rw [hcap]

theorem make_move_new_simple (b : GameBoard) (m : ChessMove) (p : Piece) (c : Color)
    (h : b.placement m.source = some (p, c))
    (hnoEp : ¬(p = Piece.pawn ∧ m.source.file ≠ m.dest.file ∧ b.placement m.dest = none))
    (hnoCastle : ¬(p = Piece.king ∧ m.source.file.val = 4 ∧
      (m.dest.file.val = 6 ∨ m.dest.file.val = 2))) :
    b.make_move_new m =
      ⟨setSq (setSq b.placement m.source none) m.dest (some (m.promotion.getD p, c)),
        b.sideToMove.other⟩ := by
  have h6 : ¬(p = Piece.king ∧ m.source.file.val = 4 ∧ m.dest.file.val = 6) :=
    fun ⟨a1, a2, a3⟩ => hnoCastle ⟨a1, a2, Or.inl a3⟩
  have h2 : ¬(p = Piece.king ∧ m.source.file.val = 4 ∧ m.dest.file.val = 2) :=
    fun ⟨a1, a2, a3⟩ => hnoCastle ⟨a1, a2, Or.inr a3⟩
  unfold GameBoard.make_move_new
  rw [h]
  simp only [if_neg hnoEp, if_neg h6, if_neg h2]

theorem sum_two_updates (pl : Square → Option (Piece × Color)) (src dst : Square)
    (v : Option (Piece × Color)) (col : Color) (hne : src ≠ dst) :
    (boardSquares.map (placeContrib (setSq (setSq pl src none) dst v) col)).sum =
      (boardSquares.map (placeContrib pl col)).sum
        - placeContrib pl col src
        + (placeContrib (setSq (setSq pl src none) dst v) col dst
            - placeContrib pl col dst) := by
  have h1 : ∀ x, x ≠ src → placeContrib pl col x = placeContrib (setSq pl src none) col x := by
    intro x hx
    unfold placeContrib setSq
    rw [if_neg hx]
  have h2 : ∀ x, x ≠ dst →
      placeContrib (setSq pl src none) col x =
        placeContrib (setSq (setSq pl src none) dst v) col x := by
    intro x hx
    unfold placeContrib setSq
    rw [if_neg hx]
  have e1 := sum_map_update _ _ src h1 boardSquares boardSquares_nodup (mem_boardSquares src)
  have e2 := sum_map_update _ _ dst h2 boardSquares boardSquares_nodup (mem_boardSquares dst)
  have hsrc0 : placeContrib (setSq pl src none) col src = 0 := by
    unfold placeContrib setSq
    simp
  have hdst1 : placeContrib (setSq pl src none) col dst = placeContrib pl col dst :=
    (h1 dst (Ne.symm hne)).symm
  rw [e2, e1, hsrc0, hdst1]
  omega

theorem score_position_diff_val (m : ChessMove) (p : Piece) (c : Color)
    (capev : Option PieceEvent) :
    score_position_diff ⟨c, ⟨m.promotion.map (fun q => ⟨q, m.dest⟩), capev⟩,
        m.source, m.dest, p⟩ =
      score_piece_position (m.promotion.getD p) c m.dest.rank m.dest.file -
        score_piece_position p c m.source.rank m.source.file := by
  rcases hp : m.promotion with _ | q <;> simp [score_position_diff, hp]

theorem Color.other_ne (c : Color) : c.other ≠ c := by
  cases c <;> simp [Color.other]

/-- The `MoveInfo` that `from_move` produces at a `GameBoard` whose source
square holds `(p, c)`. -/
def moveInfoOf (b : GameBoard) (m : ChessMove) (p : Piece) (c : Color) : MoveInfo :=
  ⟨c, ⟨m.promotion.map (fun q => ⟨q, m.dest⟩),
    (b.placement m.dest).map (fun q => ⟨q.1, m.dest⟩)⟩, m.source, m.dest, p⟩

theorem apply_move_step (ctx : SearchContext boardLib) (m : ChessMove)
    (hsm : SimpleMove ctx.board m)
    (hinv : (ctx.white_position, ctx.black_position) = score_board_position boardLib ctx.board) :
    ∃ ctx2 : SearchContext boardLib,
      SearchContext.apply_move_new boardLib ctx m = Except.ok ctx2 ∧
      ctx2.board = GameBoard.make_move_new ctx.board m ∧
      ctx2.histLen = ctx.histLen ∧
      (ctx2.white_position, ctx2.black_position) = score_board_position boardLib ctx2.board := by
  obtain ⟨hne, hsome, hcapOk, hnoEp, hnoCastle⟩ := hsm
  rcases hpl : (ctx.board : GameBoard).placement m.source with _ | pc0
  · rw [hpl] at hsome
    simp at hsome
  obtain ⟨p, c⟩ := pc0
  have hsp : srcPiece ctx.board m = p := by
    unfold srcPiece
    rw [hpl]
    rfl
  have hsc : srcColor ctx.board m = c := by
    unfold srcColor
    rw [hpl]
    rfl
  rw [hsp] at hnoEp hnoCastle
  rw [hsc] at hcapOk
  have hfm : MoveInfo.from_move boardLib m ctx.board = Except.ok (moveInfoOf ctx.board m p c) :=
    from_move_boardLib ctx.board m p c hpl
  refine ⟨⟨GameBoard.make_move_new ctx.board m, 0, ctx.histLen,
      (if c = Color.white then ctx.white_position + score_position_diff (moveInfoOf ctx.board m p c)
        else ctx.white_position + score_capture_diff (moveInfoOf ctx.board m p c)),
      (if c = Color.white then ctx.black_position + score_capture_diff (moveInfoOf ctx.board m p c)
        else ctx.black_position + score_position_diff (moveInfoOf ctx.board m p c)),
      ctx.signal, ctx.depth + 1⟩, ?_, rfl, rfl, ?_⟩
  · unfold SearchContext.apply_move_new
    rw [hfm]
    rfl
  · have hmm := make_move_new_simple ctx.board m p c hpl hnoEp hnoCastle
    dsimp only
    rw [hmm, score_board_position_boardLib]
    dsimp only
    rw [sum_two_updates ctx.board.placement m.source m.dest _ Color.white hne,
      sum_two_updates ctx.board.placement m.source m.dest _ Color.black hne]
    have hpair := hinv
    rw [score_board_position_boardLib] at hpair
    have hw := congrArg Prod.fst hpair
    have hb := congrArg Prod.snd hpair
    dsimp only at hw hb
    have hposd2 : score_position_diff (moveInfoOf ctx.board m p c) =
        score_piece_position (m.promotion.getD p) c m.dest.rank m.dest.file -
          score_piece_position p c m.source.rank m.source.file :=
      score_position_diff_val m p c
        ((ctx.board.placement m.dest).map (fun q => ⟨q.1, m.dest⟩))
    have hcsW : placeContrib ctx.board.placement Color.white m.source =
        if c = Color.white then score_piece_position p c m.source.rank m.source.file else 0 := by
      simp [placeContrib, hpl]
    have hcsB : placeContrib ctx.board.placement Color.black m.source =
        if c = Color.black then score_piece_position p c m.source.rank m.source.file else 0 := by
      simp [placeContrib, hpl]
    have hcdW : placeContrib
        (setSq (setSq ctx.board.placement m.source none) m.dest
          (some (m.promotion.getD p, c))) Color.white m.dest =
        if c = Color.white then
          score_piece_position (m.promotion.getD p) c m.dest.rank m.dest.file else 0 := by
      simp [placeContrib, setSq]
    have hcdB : placeContrib
        (setSq (setSq ctx.board.placement m.source none) m.dest
          (some (m.promotion.getD p, c))) Color.black m.dest =
        if c = Color.black then
          score_piece_position (m.promotion.getD p) c m.dest.rank m.dest.file else 0 := by
      simp [placeContrib, setSq]
    rw [Prod.mk.injEq]
    rcases hd : (ctx.board : GameBoard).placement m.dest with _ | qc2
    · have hcap0 : score_capture_diff (moveInfoOf ctx.board m p c) = 0 := by
        simp [score_capture_diff, moveInfoOf, hd]
      have hvW : placeContrib ctx.board.placement Color.white m.dest = 0 := by
        simp [placeContrib, hd]
      have hvB : placeContrib ctx.board.placement Color.black m.dest = 0 := by
        simp [placeContrib, hd]
      rw [hposd2, hcap0, hcsW, hcsB, hcdW, hcdB, hvW, hvB]
      cases c <;> simp [Color.other] <;> omega
    · obtain ⟨q, c2⟩ := qc2
      have hc2 : c2 = c.other := by
        rcases hcapOk with hnone | hsnd
        · rw [hd] at hnone
          exact absurd hnone (by simp)
        · rw [hd] at hsnd
          simpa using hsnd
      subst hc2
      have hcapv : score_capture_diff (moveInfoOf ctx.board m p c) =
          -(score_piece_position q c.other m.dest.rank m.dest.file) := by
        simp [score_capture_diff, moveInfoOf, hd]
      have hvW : placeContrib ctx.board.placement Color.white m.dest =
          if c.other = Color.white then
            score_piece_position q c.other m.dest.rank m.dest.file else 0 := by
        simp [placeContrib, hd]
      have hvB : placeContrib ctx.board.placement Color.black m.dest =
          if c.other = Color.black then
            score_piece_position q c.other m.dest.rank m.dest.file else 0 := by
        simp [placeContrib, hd]
      rw [hposd2, hcapv, hcsW, hcsB, hcdW, hcdB, hvW, hvB]
      cases c <;> simp [Color.other] <;> omega

theorem applyMoves_invariant (ms : List ChessMove) : ∀ ctx : SearchContext boardLib,
    SimpleSeq ctx.board ms →
    (ctx.white_position, ctx.black_position) = score_board_position boardLib ctx.board →
    ∃ ctx2, applyMoves ctx ms = Except.ok ctx2 ∧
      (ctx2.white_position, ctx2.black_position) = score_board_position boardLib ctx2.board := by
  induction ms with
  | nil =>
      intro ctx _ hinv
      exact ⟨ctx, rfl, hinv⟩
  | cons m ms ih =>
      intro ctx hseq hinv
      obtain ⟨hm, hrest⟩ := hseq
      obtain ⟨ctx1, happ, hboard, _, hinv1⟩ := apply_move_step ctx m hm hinv
      have hrest1 : SimpleSeq ctx1.board ms := by
        rw [hboard]
        exact hrest
      obtain ⟨ctx2, happ2, hinv2⟩ := ih ctx1 hrest1 hinv1
      refine ⟨ctx2, ?_, hinv2⟩
      unfold applyMoves
      rw [happ]
      exact happ2

/-- Kings on e1/e8, a white pawn on e5, a black pawn on d7; Black to move.
After 1…d7–d5, 2.e5xd6 is a legal en-passant capture. -/
def epBoard : GameBoard where
  placement := fun sq =>
    if sq = ⟨0, 4⟩ then some (Piece.king, Color.white)
    else if sq = ⟨7, 4⟩ then some (Piece.king, Color.black)
    else if sq = ⟨4, 4⟩ then some (Piece.pawn, Color.white)
    else if sq = ⟨6, 3⟩ then some (Piece.pawn, Color.black)
    else none
  sideToMove := Color.black

/-- The legal sequence d7–d5, e5xd6 (en passant). -/
def epMoves : List ChessMove :=
  [⟨⟨6, 3⟩, ⟨4, 3⟩, none⟩, ⟨⟨4, 4⟩, ⟨5, 3⟩, none⟩]

/-- The incremental search-context fold over the en-passant sequence. -/
def c2Run : Except Panic (SearchContext boardLib) :=
  applyMoves (initCtx epBoard) epMoves

/-- The incremental `(white, black)` pair next to the from-scratch
`score_board_position` of the final board. -/
def c2Pairs : Except Panic ((Int × Int) × (Int × Int)) :=
  c2Run.map fun ctx =>
    ((ctx.white_position, ctx.black_position), score_board_position boardLib ctx.board)

/-- Claim C2 fails on the code: after the legal sequence d7–d5, e5xd6
(en passant) from `epBoard`, the incremental pair kept by `apply_move_new`
is `(20130, 20120)` — the captured d5 pawn is still credited to Black,
because the capture event only looks at the destination square — while
scoring the final board from scratch gives `(20130, 20000)`. -/
theorem C2_counterexample_en_passant :
    c2Pairs = .ok ((20130, 20120), (20130, 20000)) ∧
    ((20130, 20120) : Int × Int) ≠ (20130, 20000) := by
  constructor
  · rfl
  · decide

/-- Claim C2 (amended): for every starting position and every sequence of
legal moves that contains no castling and no en-passant capture, the
incremental `(white_position, black_position)` pair maintained by
`SearchContext::apply_move_new` — seeded from `score_board_position` —
equals `score_board_position` of the final board, and `board_score()`
equals the from-scratch own-minus-opponent score of the current
position. -/
theorem C2_incremental_eq_scratch_simple (b0 : GameBoard) (ms : List ChessMove)
    (h : SimpleSeq b0 ms) :
    ∃ ctx2, applyMoves (initCtx b0) ms = Except.ok ctx2 ∧
      (ctx2.white_position, ctx2.black_position) = score_board_position boardLib ctx2.board ∧
      SearchContext.board_score boardLib ctx2 =
        (if boardLib.side_to_move ctx2.board = Color.white then
          (score_board_position boardLib ctx2.board).1 -
            (score_board_position boardLib ctx2.board).2
        else
          (score_board_position boardLib ctx2.board).2 -
            (score_board_position boardLib ctx2.board).1) := by
  obtain ⟨ctx2, happ, hinv⟩ := applyMoves_invariant ms (initCtx b0) h rfl
  have hw := congrArg Prod.fst hinv
  have hb := congrArg Prod.snd hinv
  dsimp only at hw hb
  refine ⟨ctx2, happ, hinv, ?_⟩
  unfold SearchContext.board_score
  rw [hw, hb]

/-- Kings on e1/e8, a white pawn on a7, a black rook on b8; White to move.
The promotion capture a7xb8=Q is legal and simple (no castle, no en
passant). -/
def promoBoard : GameBoard where
  placement := fun sq =>
    if sq = ⟨0, 4⟩ then some (Piece.king, Color.white)
    else if sq = ⟨7, 4⟩ then some (Piece.king, Color.black)
    else if sq = ⟨6, 0⟩ then some (Piece.pawn, Color.white)
    else if sq = ⟨7, 1⟩ then some (Piece.rook, Color.black)
    else none
  sideToMove := Color.white

/-- The legal sequence a7xb8=Q. -/
def promoMoves : List ChessMove :=
  [⟨⟨6, 0⟩, ⟨7, 1⟩, some Piece.queen⟩]

/-- Witness for the amended C2 at a concrete promotion-capture sequence. -/
theorem C2_incremental_eq_scratch_simple_witness :
    ∃ ctx2, applyMoves (initCtx promoBoard) promoMoves = Except.ok ctx2 ∧
      (ctx2.white_position, ctx2.black_position) = score_board_position boardLib ctx2.board ∧
      SearchContext.board_score boardLib ctx2 =
        (if boardLib.side_to_move ctx2.board = Color.white then
          (score_board_position boardLib ctx2.board).1 -
            (score_board_position boardLib ctx2.board).2
        else
          (score_board_position boardLib ctx2.board).2 -
            (score_board_position boardLib ctx2.board).1) :=
  C2_incremental_eq_scratch_simple promoBoard promoMoves (by decide)

/-! ## The search core (`src/search/alpha_beta.rs`)

`nega_max` and `quiescence_search`, threaded through the shared mutable
state (the TT and the `Rc`-shared history backing array).  `nega_max`
additionally returns the list of `TT::set` calls it performed, each
recording the actual arguments passed together with ghost fields (the
frame's remaining depth, its alpha at entry, the move that produced the
running maximum, and which of the three store sites fired) used only to
state properties.  Quiescence carries fuel: the source recursion terminates
by material exhaustion, which the embedding bounds explicitly; running out
of fuel is a model-only error, never a behavior of the code. -/

/-- `MIN_SCORE`: `i16::MIN + i8::MAX as i16`. -/
def MIN_SCORE : Int := -32768 + 127

/-- `CHECKMATE_SCORE = MIN_SCORE + i8::MAX as i16`. -/
def CHECKMATE_SCORE : Int := MIN_SCORE + 127

/-- `CHECK_TERMINATION`: the node-count sampling mask (2047). -/
def CHECK_TERMINATION : Nat := 0x7FF

/-- `NegaMaxResult` of `src/search/alpha_beta.rs`. -/
structure NegaMaxResult where
  nodes : Nat
  score : Int
  deriving DecidableEq, Repr

/-- The shared mutable state of one search: the transposition table behind
its `Arc`, and the history backing array behind its `Rc<UnsafeCell<_>>`. -/
structure SharedState where
  tt : TT
  arr : HistArr

/-- Which of `nega_max`'s three `TT::set` sites performed a store. -/
inductive StoreKind where
  | terminal
  | cutoff
  | final
  deriving DecidableEq, Repr

/-- One recorded `TT::set` call: the six actual arguments, then ghost
data about the calling frame. -/
structure SetCall where
  hash : Nat
  depthArg : Nat
  scoreArg : Int
  moveArg : ChessMove
  alphaArg : Int
  betaArg : Int
  ghostRemaining : Nat
  ghostAlphaEntry : Int
  ghostBest : Option ChessMove
  kind : StoreKind
  deriving DecidableEq, Repr

/-- Outcome of the TT-probe phase at the top of `nega_max` (lines 43–59):
either an immediate return with a score, or continue with adjusted
bounds. -/
inductive ProbeOutcome where
  | cut (score : Int)
  | go (alpha beta : Int)
  deriving DecidableEq, Repr

/-- The TT-probe phase: an `Exact` deep-enough entry returns its score; a
`LowerBound` raises alpha, an `UpperBound` lowers beta, and if the window
closed the entry's score is returned; a shallower entry changes nothing. -/
def tt_probe (entry : Option TTData) (depth : Nat) (alpha beta : Int) : ProbeOutcome :=
  match entry with
  | none => .go alpha beta
  | some te =>
      if te.depth ≥ depth then
        match te.node_type with
        | .exact => .cut te.score
        | .lowerBound =>
            let a := max alpha te.score
            if a ≥ beta then .cut te.score else .go a beta
        | .upperBound =>
            let b := min beta te.score
            if alpha ≥ b then .cut te.score else .go alpha b
      else .go alpha beta

/-- The move loop of `quiescence_search`: skip non-captures; apply, push,
recurse negated (through `f`, the quiescence search one ply deeper), pop;
fail high on `child.score ≥ beta`, else keep the best value and raise
alpha. -/
def qloop (L : ChessLib)
    (f : SharedState → SearchContext L → Int → Int →
      Except Panic (NegaMaxResult × SharedState))
    (ctx : SearchContext L) :
    List ChessMove → SharedState → Int → Int → Nat → Int →
      Except Panic (NegaMaxResult × SharedState)
  | [], st, _, _, nodes, best_value => .ok (⟨nodes, best_value⟩, st)
  | m :: rest, st, alpha, beta, nodes, best_value =>
      if is_capture L m ctx.board = false then
        qloop L f ctx rest st alpha beta nodes best_value
      else
        match SearchContext.apply_move_new L ctx m with
        | .error e => .error e
        | .ok next =>
            match st.arr.writeAt ctx.histLen next.hash with
            | none => .error .historyOverflow
            | some arr1 =>
                match f ⟨st.tt, arr1⟩ next (-beta) (-alpha) with
                | .error e => .error e
                | .ok (child, st2) =>
                    let cs := -child.score
                    let nodes1 := nodes + child.nodes + 1
                    if cs ≥ beta then .ok (⟨nodes1, cs⟩, st2)
                    else
                      qloop L f ctx rest st2
                        (if cs > alpha then cs else alpha) beta nodes1
                        (if cs > best_value then cs else best_value)

/-- `quiescence_search`: stand-pat cutoff, alpha raise, repetition check,
then the capture-only loop; `fuel` bounds the recursion depth (the source
terminates by material exhaustion). -/
def quiescence_search (L : ChessLib) (fuel : Nat) (st : SharedState)
    (ctx : SearchContext L) (alpha beta : Int) :
    Except Panic (NegaMaxResult × SharedState) :=
  match fuel with
  | 0 => .error .outOfFuel
  | fuel + 1 =>
      let stand_pat := SearchContext.board_score L ctx
      if stand_pat ≥ beta then .ok (⟨0, stand_pat⟩, st)
      else
        let alpha1 := if alpha < stand_pat then stand_pat else alpha
        if st.arr.seen_times ctx.hash ≥ 3 then .ok (⟨0, 0⟩, st)
        else
          qloop L (fun st2 next a b => quiescence_search L fuel st2 next a b) ctx
            (get_sorted_moves L ctx.board) st alpha1 beta 0 stand_pat

/-- The alpha-beta move loop of `nega_max`.  `f` is the one-ply-deeper
search; `remaining` and `alphaEntry` are ghost copies of the frame's depth
and entry alpha; `alpha`, `max_score`, `nodes` and `best` are the loop
accumulators. -/
def nloop (L : ChessLib)
    (f : SharedState → SearchContext L → Int → Int →
      Except Panic (NegaMaxResult × SharedState × List SetCall))
    (ctx : SearchContext L) (remaining : Nat) (alphaEntry beta : Int) :
    List ChessMove → SharedState → Int → Int → Nat → Option ChessMove →
      Except Panic (NegaMaxResult × SharedState × List SetCall)
  | [], st, alpha, max_score, nodes, best =>
      .ok (⟨nodes, max_score⟩,
        ⟨st.tt.set ctx.hash ctx.depth max_score ChessMove.default alpha beta, st.arr⟩,
        [⟨ctx.hash, ctx.depth, max_score, ChessMove.default, alpha, beta,
          remaining, alphaEntry, best, .final⟩])
  | m :: rest, st, alpha, max_score, nodes, best =>
      match SearchContext.apply_move_new L ctx m with
      | .error e => .error e
      | .ok next =>
          match st.arr.writeAt ctx.histLen next.hash with
          | none => .error .historyOverflow
          | some arr1 =>
              match f ⟨st.tt, arr1⟩ next (-beta) (-alpha) with
              | .error e => .error e
              | .ok (child, st2, tr) =>
                  let cs := -child.score
                  let nodes1 := nodes + child.nodes + 1
                  let max1 := max max_score cs
                  let best1 := if cs > max_score then some m else best
                  let alpha2 := max alpha max1
                  if alpha2 ≥ beta then
                    .ok (⟨nodes1, max1⟩,
                      ⟨st2.tt.set ctx.hash ctx.depth max1 ChessMove.default alpha2 beta,
                        st2.arr⟩,
                      tr ++ [⟨ctx.hash, ctx.depth, max1, ChessMove.default, alpha2, beta,
                        remaining, alphaEntry, best1, .cutoff⟩])
                  else if (CHECK_TERMINATION &&& nodes1 = 0) ∧ ctx.signal nodes1 then
                    .ok (⟨nodes1, max1⟩, st2, tr)
                  else
                    match nloop L f ctx remaining alphaEntry beta rest st2 alpha2
                        max1 nodes1 best1 with
                    | .error e => .error e
                    | .ok (r, st3, tr2) => .ok (r, st3, tr ++ tr2)

/-- `nega_max`: TT probe, sorted move generation, mate/stalemate terminal
(with its TT store), repetition check over the whole history array, leaf
delegation to quiescence, then the alpha-beta move loop one ply deeper. -/
def nega_max (L : ChessLib) (qfuel : Nat) (st : SharedState) (ctx : SearchContext L)
    (depth : Nat) (alpha beta : Int) :
    Except Panic (NegaMaxResult × SharedState × List SetCall) :=
  match st.tt.get ctx.hash with
  | .error e => .error e
  | .ok entry =>
      match tt_probe entry depth alpha beta with
      | .cut s => .ok (⟨0, s⟩, st, [])
      | .go alpha1 beta1 =>
          let mg := get_sorted_moves L ctx.board
          if mg.isEmpty then
            let res : NegaMaxResult :=
              if L.in_check ctx.board then ⟨0, CHECKMATE_SCORE - depth⟩ else ⟨0, 0⟩
            .ok (res,
              ⟨st.tt.set ctx.hash ctx.depth res.score ChessMove.default alpha1 beta1,
                st.arr⟩,
              [⟨ctx.hash, ctx.depth, res.score, ChessMove.default, alpha1, beta1,
                depth, alpha, none, .terminal⟩])
          else if st.arr.seen_times ctx.hash ≥ 3 then .ok (⟨0, 0⟩, st, [])
          else
            match depth with
            | 0 =>
                match quiescence_search L qfuel st ctx alpha1 beta1 with
                | .error e => .error e
                | .ok (r, st2) => .ok (r, st2, [])
            | d + 1 =>
                nloop L (fun st2 next a b => nega_max L qfuel st2 next d a b) ctx
                  (d + 1) alpha beta1 mg st alpha1 MIN_SCORE 0 none

/-- Claim C6: at entry to a `nega_max` frame, a TT entry at `ctx.hash` with
`entry.depth ≥ depth` acts as follows — `Exact` returns `(0 nodes,
entry.score)` immediately; `LowerBound` raises alpha to `max(alpha,
entry.score)`; `UpperBound` lowers beta to `min(beta, entry.score)`; if the
adjusted window has `alpha ≥ beta` the frame returns `(0 nodes,
entry.score)`; and an entry with `entry.depth < depth` leaves both bounds
unchanged. -/
theorem C6_tt_probe (L : ChessLib) (qfuel : Nat) (st : SharedState)
    (ctx : SearchContext L) (depth : Nat) (alpha beta : Int) :
    (∀ te : TTData, depth ≤ te.depth → te.node_type = NodeType.exact →
      tt_probe (some te) depth alpha beta = .cut te.score) ∧
    (∀ te : TTData, depth ≤ te.depth → te.node_type = NodeType.lowerBound →
      tt_probe (some te) depth alpha beta =
        (if max alpha te.score ≥ beta then .cut te.score
          else .go (max alpha te.score) beta)) ∧
    (∀ te : TTData, depth ≤ te.depth → te.node_type = NodeType.upperBound →
      tt_probe (some te) depth alpha beta =
        (if alpha ≥ min beta te.score then .cut te.score
          else .go alpha (min beta te.score))) ∧
    (∀ te : TTData, te.depth < depth →
      tt_probe (some te) depth alpha beta = .go alpha beta) ∧
    (∀ entry s, st.tt.get ctx.hash = .ok entry →
      tt_probe entry depth alpha beta = .cut s →
      nega_max L qfuel st ctx depth alpha beta = .ok (⟨0, s⟩, st, [])) := by
  refine ⟨?_, ?_, ?_, ?_, ?_⟩
  · intro te hd ht
    simp [tt_probe, hd, ht]
  · intro te hd ht
    simp [tt_probe, hd, ht]
  · intro te hd ht
    simp [tt_probe, hd, ht]
  · intro te hd
    simp [tt_probe, Nat.not_le_of_lt hd]
  · intro entry s hget hcut
    unfold nega_max
    rw [hget]
    simp only [hcut]

/-- A board type with no state, for exercising probe-driven early returns:
the library fields are never consulted when the probe cuts. -/
def unitLib : ChessLib where
  Board := Unit
  piece_on := fun _ _ => none
  color_on := fun _ _ => none
  legal_moves := fun _ => []
  make_move_new := fun b _ => b
  get_hash := fun _ => 0
  in_check := fun _ => false
  side_to_move := fun _ => Color.white

/-- A TT holding an Exact entry of depth 3, score 42 under hash 5 (stored
with alpha 0 and beta 100, so the bound kind derives to Exact). -/
def ttC6 : TT := (TT.new 4).set 5 3 42 ChessMove.default 0 100

/-- A context probing hash 5. -/
def ctxC6 : SearchContext unitLib :=
  ⟨(), 5, 0, 0, 0, fun _ => false, 1⟩

/-- Witness for C6 at concrete inputs: the stored Exact entry of depth 3
cuts a depth-2 frame to `(0 nodes, 42)`; the bound-adjustment equations
evaluate at depth 2, alpha 10, beta 20 against entries of each kind. -/
theorem C6_tt_probe_witness :
    tt_probe (some ⟨3, 42, ChessMove.default, NodeType.exact⟩) 2 10 20 = .cut 42 ∧
    tt_probe (some ⟨3, 15, ChessMove.default, NodeType.lowerBound⟩) 2 10 20 =
      .go (max 10 15) 20 ∧
    tt_probe (some ⟨3, 15, ChessMove.default, NodeType.upperBound⟩) 2 10 20 =
      .go 10 (min 20 15) ∧
    tt_probe (some ⟨1, 15, ChessMove.default, NodeType.lowerBound⟩) 2 10 20 = .go 10 20 ∧
    nega_max unitLib 1 ⟨ttC6, HistArr.zero⟩ ctxC6 2 0 100 =
      .ok (⟨0, 42⟩, ⟨ttC6, HistArr.zero⟩, []) := by
  have h := C6_tt_probe unitLib 1 ⟨ttC6, HistArr.zero⟩ ctxC6 2 10 20
  refine ⟨?_, ?_, ?_, ?_, ?_⟩
  · exact h.1 ⟨3, 42, ChessMove.default, NodeType.exact⟩ (by decide) rfl
  · rw [h.2.1 ⟨3, 15, ChessMove.default, NodeType.lowerBound⟩ (by decide) rfl]
    decide
  · rw [h.2.2.1 ⟨3, 15, ChessMove.default, NodeType.upperBound⟩ (by decide) rfl]
    decide
  · exact h.2.2.2.1 ⟨1, 15, ChessMove.default, NodeType.lowerBound⟩ (by decide)
  · exact (C6_tt_probe unitLib 1 ⟨ttC6, HistArr.zero⟩ ctxC6 2 0 100).2.2.2.2
      (some ⟨3, 42, ChessMove.default, NodeType.exact⟩) 42 (by rfl) (by decide)

/-- Claim C7: a frame whose probe does not cut and whose position has no
legal moves returns 0 nodes and score `CHECKMATE_SCORE − depth` when the
side to move is in check, and 0 nodes, score 0 otherwise; with
`MIN_SCORE = i16::MIN + 127` and `CHECKMATE_SCORE = MIN_SCORE + 127`. -/
theorem C7_terminal (L : ChessLib) (qfuel : Nat) (st : SharedState)
    (ctx : SearchContext L) (depth : Nat) (alpha beta alpha1 beta1 : Int)
    (entry : Option TTData)
    (hget : st.tt.get ctx.hash = .ok entry)
    (hgo : tt_probe entry depth alpha beta = .go alpha1 beta1)
    (hmg : get_sorted_moves L ctx.board = []) :
    (nega_max L qfuel st ctx depth alpha beta).map (fun r => r.1) =
      .ok (if L.in_check ctx.board then
        (⟨0, CHECKMATE_SCORE - depth⟩ : NegaMaxResult) else ⟨0, 0⟩) ∧
    MIN_SCORE = -32768 + 127 ∧ CHECKMATE_SCORE = MIN_SCORE + 127 := by
  refine ⟨?_, rfl, rfl⟩
  unfold nega_max
  rw [hget]
  simp only [hgo, hmg]
  rcases hc : L.in_check ctx.board with _ | _ <;>
    simp [hc, Except.map]

/-- An empty-board context with hash 7 for the stalemate-shaped witness. -/
def ctxC7 : SearchContext unitLib :=
  ⟨(), 7, 0, 0, 0, fun _ => false, 1⟩

/-- Witness for C7: on the moveless `unitLib` position (not in check) with
an empty table, the frame returns 0 nodes and score 0. -/
theorem C7_terminal_witness :
    (nega_max unitLib 1 ⟨TT.new 4, HistArr.zero⟩ ctxC7 3 (-5) 5).map (fun r => r.1) =
      .ok (if unitLib.in_check ctxC7.board then
        (⟨0, CHECKMATE_SCORE - 3⟩ : NegaMaxResult) else ⟨0, 0⟩) ∧
    MIN_SCORE = -32768 + 127 ∧ CHECKMATE_SCORE = MIN_SCORE + 127 :=
  C7_terminal unitLib 1 ⟨TT.new 4, HistArr.zero⟩ ctxC7 3 (-5) 5 (-5) 5 none
    (by rfl) (by decide) (by rfl)

theorem qloop_filter (L : ChessLib)
    (f : SharedState → SearchContext L → Int → Int →
      Except Panic (NegaMaxResult × SharedState))
    (ctx : SearchContext L) :
    ∀ (ms : List ChessMove) (st : SharedState) (alpha beta : Int)
      (nodes : Nat) (best : Int),
      qloop L f ctx ms st alpha beta nodes best =
        qloop L f ctx (ms.filter (fun m => is_capture L m ctx.board))
          st alpha beta nodes best
  | [], _, _, _, _, _ => rfl
  | m :: rest, st, alpha, beta, nodes, best => by
      rcases hcap : is_capture L m ctx.board with _ | _
      · conv_lhs => rw [qloop]
        simp [hcap, List.filter_cons]
        exact qloop_filter L f ctx rest st alpha beta nodes best
      · have hflt : (m :: rest).filter (fun m => is_capture L m ctx.board) =
            m :: rest.filter (fun m => is_capture L m ctx.board) := by
          simp [List.filter_cons, hcap]
        rw [hflt]
        conv_lhs => rw [qloop]
        conv_rhs => rw [qloop]
        simp only [hcap]
        rcases happ : SearchContext.apply_move_new L ctx m with e | next
        · simp [happ]
        · simp only [happ]
          rcases hw : st.arr.writeAt ctx.histLen next.hash with _ | arr1
          · simp [hw]
          · simp only [hw]
            rcases hq : f ⟨st.tt, arr1⟩ next (-beta) (-alpha) with e | pr
            · simp [hq]
            · obtain ⟨child, st2⟩ := pr
              simp only [hq]
              by_cases hcs : -child.score ≥ beta
              · simp [hcs]
              · simp only [if_neg hcs]
                exact qloop_filter L f ctx rest st2
                  (if -child.score > alpha then -child.score else alpha) beta
                  (nodes + child.nodes + 1)
                  (if -child.score > best then -child.score else best)

/-- Claim C9: with `stand_pat = ctx.board_score()`, a quiescence call
returns `stand_pat` with 0 nodes when `stand_pat ≥ beta` without examining
any move; otherwise alpha is raised to `max(alpha, stand_pat)`, the
threefold-repetition check still applies, and the loop recurses exactly on
the capture moves of the sorted move list, returning the best value
found. -/
theorem C9_quiescence (L : ChessLib) (qfuel : Nat) (st : SharedState)
    (ctx : SearchContext L) (alpha beta : Int) :
    (SearchContext.board_score L ctx ≥ beta →
      quiescence_search L (qfuel + 1) st ctx alpha beta =
        .ok (⟨0, SearchContext.board_score L ctx⟩, st)) ∧
    (SearchContext.board_score L ctx < beta → st.arr.seen_times ctx.hash ≥ 3 →
      quiescence_search L (qfuel + 1) st ctx alpha beta = .ok (⟨0, 0⟩, st)) ∧
    (SearchContext.board_score L ctx < beta → st.arr.seen_times ctx.hash < 3 →
      quiescence_search L (qfuel + 1) st ctx alpha beta =
        qloop L (fun st2 next a b => quiescence_search L qfuel st2 next a b) ctx
          ((get_sorted_moves L ctx.board).filter (fun m => is_capture L m ctx.board))
          st (max alpha (SearchContext.board_score L ctx)) beta 0
          (SearchContext.board_score L ctx)) := by
  refine ⟨?_, ?_, ?_⟩
  · intro hsp
    unfold quiescence_search
    simp [hsp]
  · intro hsp hrep
    unfold quiescence_search
    rw [if_neg (by omega)]
    simp [hrep]
  · intro hsp hrep
    have hstep : quiescence_search L (qfuel + 1) st ctx alpha beta =
        qloop L (fun st2 next a b => quiescence_search L qfuel st2 next a b) ctx
          (get_sorted_moves L ctx.board) st
          (if alpha < SearchContext.board_score L ctx then
            SearchContext.board_score L ctx else alpha) beta 0
          (SearchContext.board_score L ctx) := by
      conv_lhs => rw [quiescence_search]
      simp only [if_neg (by omega : ¬ SearchContext.board_score L ctx ≥ beta),
        if_neg (by omega : ¬ st.arr.seen_times ctx.hash ≥ 3)]
    have hmax : (if alpha < SearchContext.board_score L ctx then
        SearchContext.board_score L ctx else alpha) =
        max alpha (SearchContext.board_score L ctx) := by
      rcases lt_or_ge alpha (SearchContext.board_score L ctx) with h | h
      · rw [if_pos h, max_eq_right (le_of_lt h)]
      · rw [if_neg (not_lt_of_ge h), max_eq_left h]
    rw [hstep, hmax]
    exact qloop_filter L (fun st2 next a b => quiescence_search L qfuel st2 next a b)
      ctx (get_sorted_moves L ctx.board) st _ beta 0 _

/-- A context whose stand-pat score is 2 (white positions 5 and 3) under
hash 9. -/
def ctxC9 : SearchContext unitLib :=
  ⟨(), 9, 0, 5, 3, fun _ => false, 1⟩

/-- Witness for C9: at the concrete context, beta 1 fails high with the
stand-pat score of 2 and zero nodes, and beta 10 reduces the call to the
capture-only loop with alpha raised to `max(-4, 2)`. -/
theorem C9_quiescence_witness :
    quiescence_search unitLib 2 ⟨TT.new 4, HistArr.zero⟩ ctxC9 (-4) 1 =
      .ok (⟨0, SearchContext.board_score unitLib ctxC9⟩, ⟨TT.new 4, HistArr.zero⟩) ∧
    quiescence_search unitLib 2 ⟨TT.new 4, HistArr.zero⟩ ctxC9 (-4) 10 =
      qloop unitLib (fun st2 next a b => quiescence_search unitLib 1 st2 next a b) ctxC9
        ((get_sorted_moves unitLib ctxC9.board).filter
          (fun m => is_capture unitLib m ctxC9.board))
        ⟨TT.new 4, HistArr.zero⟩ (max (-4) (SearchContext.board_score unitLib ctxC9)) 10 0
        (SearchContext.board_score unitLib ctxC9) := by
  constructor
  · exact (C9_quiescence unitLib 1 ⟨TT.new 4, HistArr.zero⟩ ctxC9 (-4) 1).1 (by decide)
  · exact (C9_quiescence unitLib 1 ⟨TT.new 4, HistArr.zero⟩ ctxC9 (-4) 10).2.2
      (by decide) (by decide)

/-- The store-trace of a search outcome (empty on a panic). -/
def traceOf (r : Except Panic (NegaMaxResult × SharedState × List SetCall)) :
    List SetCall :=
  match r with
  | .ok (_, _, tr) => tr
  | .error _ => []

/-- A two-position game cycling 0 ↔ 1 (hashes 100, 101), one quiet pawn
move per position. -/
def cycleLib : ChessLib where
  Board := Nat
  piece_on := fun _ sq => if sq = ⟨0, 0⟩ then some Piece.pawn else none
  color_on := fun _ sq => if sq = ⟨0, 0⟩ then some Color.white else none
  legal_moves := fun _ => [⟨⟨0, 0⟩, ⟨0, 1⟩, none⟩]
  make_move_new := fun b _ => 1 - b
  get_hash := fun b => b + 100
  in_check := fun _ => false
  side_to_move := fun _ => Color.white

/-- The history backing array exactly as the search leaves it at ply 4 of a
root search over `cycleLib` (every push lands in slot 0, so only the most
recent hash survives). -/
def c3Arr : HistArr := fun i => if i = 0 then 100 else 0

/-- The frame state at the third on-path occurrence of hash 100: board 0,
five plies from the root. -/
def c3Ctx : SearchContext cycleLib :=
  ⟨(0 : Nat), 100, 0, 0, 0, fun _ => false, 5⟩

/-- Claim C3 at the failing input: at the frame reached after the cycle
0→1→0→1→0 (the current search path holds hash 100 three times), the claim
requires a threefold-draw return of score 0 with 0 nodes; the code instead
searches on and returns 2 nodes, because `seen_times` consults the shared
64-slot array in which every push has overwritten slot 0 — the count is 1,
not 3. -/
theorem C3_repetition_missed :
    (nega_max cycleLib 1 ⟨TT.new 4, c3Arr⟩ c3Ctx 2 MIN_SCORE (-MIN_SCORE)).map
        (fun r => r.1) = .ok ⟨2, 0⟩ ∧
    c3Arr.seen_times 100 = 1 ∧
    (get_sorted_moves cycleLib c3Ctx.board).length = 1 := by
  refine ⟨by decide, by decide, by rfl⟩

/-- A four-position game for exercising the TT stores: position 0 has two
quiet moves, positions 1 and 2 have one each, every move advancing the
position id. -/
def c4Lib : ChessLib where
  Board := Nat
  piece_on := fun b sq =>
    if b = 0 ∧ (sq = ⟨0, 0⟩ ∨ sq = ⟨1, 0⟩) then some Piece.pawn
    else if b = 1 ∧ sq = ⟨2, 0⟩ then some Piece.pawn
    else none
  color_on := fun b sq =>
    if b = 0 ∧ (sq = ⟨0, 0⟩ ∨ sq = ⟨1, 0⟩) then some Color.white
    else if b = 1 ∧ sq = ⟨2, 0⟩ then some Color.white
    else none
  legal_moves := fun b =>
    if b = 0 then [⟨⟨0, 0⟩, ⟨0, 1⟩, none⟩, ⟨⟨1, 0⟩, ⟨1, 1⟩, none⟩]
    else if b = 1 then [⟨⟨2, 0⟩, ⟨2, 1⟩, none⟩]
    else [⟨⟨3, 0⟩, ⟨3, 1⟩, none⟩]
  make_move_new := fun b _ => b + 1
  get_hash := fun b => b + 100
  in_check := fun _ => false
  side_to_move := fun _ => Color.white

/-- The root frame of a depth-2 search over `c4Lib` (seed depth 1, as
`search_core` seeds it). -/
def c4Ctx : SearchContext c4Lib :=
  ⟨(0 : Nat), 100, 0, 0, 0, fun _ => false, 1⟩

/-- The store trace of the depth-2 search. -/
def c4Trace : List SetCall :=
  traceOf (nega_max c4Lib 1 ⟨TT.new 4, HistArr.zero⟩ c4Ctx 2 MIN_SCORE (-MIN_SCORE))

/-- Claim C4's demand on one recorded store: the depth argument is the
frame's remaining depth, the classifying alpha is the frame's entry alpha,
and the stored move is the move that produced `max_score` whenever one
exists. -/
def ClaimC4Entry (e : SetCall) : Prop :=
  e.depthArg = e.ghostRemaining ∧
  e.alphaArg = e.ghostAlphaEntry ∧
  (e.ghostBest = none ∨ e.ghostBest = some e.moveArg)

instance (e : SetCall) : Decidable (ClaimC4Entry e) := by
  unfold ClaimC4Entry
  infer_instance

/-- Claim C4 at the failing input: in the depth-2 search over `c4Lib`, the
stores violate every part of the claim — there is a store whose depth
argument is `ctx.depth` (the root-relative ply) rather than the remaining
depth, whose classifying alpha is the loop-mutated alpha rather than the
frame's entry alpha, and whose stored move is `ChessMove::default()` even
though a move produced `max_score`. -/
theorem C4_tt_store_args_wrong :
    ¬ (∀ e ∈ c4Trace, ClaimC4Entry e) ∧
    (∃ e ∈ c4Trace, e.depthArg ≠ e.ghostRemaining ∧
      e.alphaArg ≠ e.ghostAlphaEntry ∧
      e.ghostBest ≠ none ∧ e.moveArg = ChessMove.default) := by
  constructor
  · decide
  · decide

/-- Detects the out-of-bounds history write among a search outcome's
failure modes. -/
def isHistOverflow {a : Type} (r : Except Panic a) : Bool :=
  match r with
  | .error .historyOverflow => true
  | _ => false

theorem writeAt_isSome (arr : HistArr) (len hash : Nat) :
    (arr.writeAt len hash).isSome = true ↔ len < MAX_PLY := by
  unfold HistArr.writeAt
  by_cases h : len < MAX_PLY
  · simp [h]
  · simp [h]

theorem apply_move_new_histLen (L : ChessLib) (ctx : SearchContext L)
    (m : ChessMove) (next : SearchContext L)
    (h : SearchContext.apply_move_new L ctx m = .ok next) :
    next.histLen = ctx.histLen := by
  unfold SearchContext.apply_move_new at h
  rcases hfm : MoveInfo.from_move L m ctx.board with e | info
  · rw [hfm] at h
    exact absurd h (by simp [Except.map])
  · rw [hfm] at h
    simp only [Except.map] at h
    cases h
    rfl

/-- `MoveInfo::from_move` can only fail on the source-square unwrap. -/
theorem from_move_error (L : ChessLib) (m : ChessMove) (b : L.Board) (e : Panic)
    (h : MoveInfo.from_move L m b = .error e) : e = Panic.noneUnwrap := by
  unfold MoveInfo.from_move at h
  rcases hp : L.piece_on b m.source with _ | p <;>
    rcases hc : L.color_on b m.source with _ | c <;>
    rw [hp, hc] at h
  · exact (Except.error.inj h).symm
  · exact (Except.error.inj h).symm
  · exact (Except.error.inj h).symm
  · exact Except.noConfusion h

/-- `apply_move_new` can only fail on the source-square unwrap. -/
theorem apply_move_new_error (L : ChessLib) (ctx : SearchContext L)
    (m : ChessMove) (e : Panic)
    (h : SearchContext.apply_move_new L ctx m = .error e) : e = Panic.noneUnwrap := by
  unfold SearchContext.apply_move_new at h
  rcases hfm : MoveInfo.from_move L m ctx.board with e2 | info
  · rw [hfm] at h
    have h2 : e2 = e := by simpa [Except.map] using h
    rw [← h2]
    exact from_move_error L m ctx.board e2 hfm
  · rw [hfm] at h
    exact absurd h (by simp [Except.map])

/-- `TT::get` can only fail while decoding a packed entry. -/
theorem tt_get_error (t : TT) (h : Nat) (e : Panic)
    (he : t.get h = .error e) : e = Panic.ttDecode := by
  unfold TT.get at he
  by_cases hh : (t.table (h &&& t.mask)).hash = h
  · rw [if_pos hh] at he
    rcases hd : TTData.fromPacked (t.table (h &&& t.mask)).value with _ | d
    · rw [hd] at he
      exact (Except.error.inj he).symm
    · rw [hd] at he
      exact Except.noConfusion he
  · rw [if_neg hh] at he
    exact Except.noConfusion he

theorem qloop_no_overflow (L : ChessLib)
    (f : SharedState → SearchContext L → Int → Int →
      Except Panic (NegaMaxResult × SharedState))
    (ctx : SearchContext L)
    (hf : ∀ st2 (next : SearchContext L) a b, next.histLen = ctx.histLen →
      isHistOverflow (f st2 next a b) = false)
    (hlen : ctx.histLen < MAX_PLY) :
    ∀ (ms : List ChessMove) (st : SharedState) (alpha beta : Int)
      (nodes : Nat) (best : Int),
      isHistOverflow (qloop L f ctx ms st alpha beta nodes best) = false
  | [], _, _, _, _, _ => rfl
  | m :: rest, st, alpha, beta, nodes, best => by
      rw [qloop]
      split
      · exact qloop_no_overflow L f ctx hf hlen rest st alpha beta nodes best
      · split
        · rename_i e happ
          cases apply_move_new_error L ctx m e happ
          rfl
        · rename_i next happ
          have hnl := apply_move_new_histLen L ctx m next happ
          split
          · rename_i hw
            have hws := (writeAt_isSome st.arr ctx.histLen next.hash).mpr hlen
            rw [hw] at hws
            simp at hws
          · rename_i arr1 hw
            split
            · rename_i e hq
              have hfe := hf ⟨st.tt, arr1⟩ next (-beta) (-alpha) hnl
              rw [hq] at hfe
              exact hfe
            · rename_i child st2 hq
              dsimp only
              split
              · rfl
              · exact qloop_no_overflow L f ctx hf hlen rest st2
                  (if -child.score > alpha then -child.score else alpha) beta
                  (nodes + child.nodes + 1)
                  (if -child.score > best then -child.score else best)

theorem quiescence_no_overflow (L : ChessLib) :
    ∀ (fuel : Nat) (st : SharedState) (ctx : SearchContext L) (alpha beta : Int),
      ctx.histLen < MAX_PLY →
      isHistOverflow (quiescence_search L fuel st ctx alpha beta) = false
  | 0, _, _, _, _, _ => rfl
  | fuel + 1, st, ctx, alpha, beta, hlen => by
      rw [quiescence_search]
      dsimp only
      by_cases hsp : SearchContext.board_score L ctx ≥ beta
      · rw [if_pos hsp]
        rfl
      · rw [if_neg hsp]
        by_cases hrep : st.arr.seen_times ctx.hash ≥ 3
        · rw [if_pos hrep]
          rfl
        · rw [if_neg hrep]
          exact qloop_no_overflow L _ ctx
            (fun st2 next a b hnl =>
              quiescence_no_overflow L fuel st2 next a b (hnl ▸ hlen))
            hlen (get_sorted_moves L ctx.board) st _ beta 0 _

theorem nloop_no_overflow (L : ChessLib)
    (f : SharedState → SearchContext L → Int → Int →
      Except Panic (NegaMaxResult × SharedState × List SetCall))
    (ctx : SearchContext L) (remaining : Nat) (alphaEntry beta : Int)
    (hf : ∀ st2 (next : SearchContext L) a b, next.histLen = ctx.histLen →
      isHistOverflow (f st2 next a b) = false)
    (hlen : ctx.histLen < MAX_PLY) :
    ∀ (ms : List ChessMove) (st : SharedState) (alpha max_score : Int)
      (nodes : Nat) (best : Option ChessMove),
      isHistOverflow (nloop L f ctx remaining alphaEntry beta ms st alpha
        max_score nodes best) = false
  | [], _, _, _, _, _ => rfl
  | m :: rest, st, alpha, max_score, nodes, best => by
      rw [nloop]
      split
      · rename_i e happ
        cases apply_move_new_error L ctx m e happ
        rfl
      · rename_i next happ
        have hnl := apply_move_new_histLen L ctx m next happ
        split
        · rename_i hw
          have hws := (writeAt_isSome st.arr ctx.histLen next.hash).mpr hlen
          rw [hw] at hws
          simp at hws
        · rename_i arr1 hw
          split
          · rename_i e hq
            have hfe := hf ⟨st.tt, arr1⟩ next (-beta) (-alpha) hnl
            rw [hq] at hfe
            exact hfe
          · rename_i child st2 tr hq
            dsimp only
            split
            · rfl
            · split
              · rfl
              · have ih := nloop_no_overflow L f ctx remaining alphaEntry beta hf hlen
                  rest st2 (max alpha (max max_score (-child.score)))
                  (max max_score (-child.score)) (nodes + child.nodes + 1)
                  (if -child.score > max_score then some m else best)
                split
                · rename_i e hrest
                  rw [hrest] at ih
                  exact ih
                · rfl

theorem nega_max_no_overflow (L : ChessLib) :
    ∀ (depth : Nat) (qfuel : Nat) (st : SharedState) (ctx : SearchContext L)
      (alpha beta : Int), ctx.histLen < MAX_PLY →
      isHistOverflow (nega_max L qfuel st ctx depth alpha beta) = false := by
  intro depth
  induction depth with
  | zero =>
      intro qfuel st ctx alpha beta hlen
      rw [nega_max]
      split
      · rename_i e hget
        cases tt_get_error st.tt ctx.hash e hget
        rfl
      · rename_i entry hget
        split
        · rfl
        · rename_i alpha1 beta1 hprobe
          dsimp only
          by_cases hmg : (get_sorted_moves L ctx.board).isEmpty = true
          · rw [if_pos hmg]
            rfl
          · rw [if_neg hmg]
            by_cases hrep : st.arr.seen_times ctx.hash ≥ 3
            · rw [if_pos hrep]
              rfl
            · rw [if_neg hrep]
              split
              · rename_i e hq
                have hqs := quiescence_no_overflow L qfuel st ctx alpha1 beta1 hlen
                rw [hq] at hqs
                cases e
                · simp [isHistOverflow] at hqs
                · rfl
                · rfl
                · rfl
              · rfl
  | succ d ih =>
      intro qfuel st ctx alpha beta hlen
      rw [nega_max]
      split
      · rename_i e hget
        cases tt_get_error st.tt ctx.hash e hget
        rfl
      · rename_i entry hget
        split
        · rfl
        · dsimp only
          by_cases hmg : (get_sorted_moves L ctx.board).isEmpty = true
          · rw [if_pos hmg]
            rfl
          · rw [if_neg hmg]
            by_cases hrep : st.arr.seen_times ctx.hash ≥ 3
            · rw [if_pos hrep]
              rfl
            · rw [if_neg hrep]
              exact nloop_no_overflow L _ ctx (d + 1) alpha _
                (fun st2 next a b hnl => ih qfuel st2 next a b (hnl ▸ hlen))
                hlen (get_sorted_moves L ctx.board) st _ MIN_SCORE 0 none

/-- An unbounded chain of positions 0 → 1 → 2 → …, one quiet move each
(hashes offset by 100 to avoid the all-zero fresh history). -/
def chainLib : ChessLib where
  Board := Nat
  piece_on := fun _ sq => if sq = ⟨0, 0⟩ then some Piece.pawn else none
  color_on := fun _ sq => if sq = ⟨0, 0⟩ then some Color.white else none
  legal_moves := fun _ => [⟨⟨0, 0⟩, ⟨0, 1⟩, none⟩]
  make_move_new := fun b _ => b + 1
  get_hash := fun b => b + 100
  in_check := fun _ => false
  side_to_move := fun _ => Color.white

/-- A backing array seeded with 63 position hashes (200–262). -/
def seededArr : HistArr := fun i => if i < 63 then i + 200 else 0

/-- The root of a depth-5 search down the chain on top of a seeded history
of length 63. -/
def chainCtx : SearchContext chainLib :=
  ⟨(0 : Nat), 100, 63, 0, 0, fun _ => false, 1⟩

set_option maxHeartbeats 4000000 in
/-- Claim C10 fails as stated: with a seeded history of length 63 and a
depth-5 search (seed + max ply = 68 > 64), the search still runs to
completion without any out-of-bounds history write — because
`apply_move_new` clones the history before the parent pushes, every push
lands at index 63, and the array never fills. -/
theorem C10_counterexample_deep_search_safe :
    isHistOverflow
      (nega_max chainLib 1 ⟨TT.new 4, seededArr⟩ chainCtx 5 MIN_SCORE
        (-MIN_SCORE)) = false ∧
    ¬ (63 + 5 ≤ MAX_PLY) := by
  constructor
  · decide
  · decide

/-- Claim C10 (amended): `push` writes at index `len` of the 64-slot
(`MAX_PLY`) array and succeeds exactly when `len < 64` (a push onto a full
history indexes out of bounds); `pop` on an empty history returns `None`
and never underflows; and a search is history-safe whenever the context's
`len` is below 64 — in particular for any seeded history shorter than 64
slots, at any depth — because the clone-before-push keeps every frame's
`len` equal to the seeded length. -/
theorem C10_history_safety :
    (∀ (hist : MoveHistory) (h : Nat),
      (hist.push h).isSome = true ↔ hist.len < MAX_PLY) ∧
    (∀ hist : MoveHistory, hist.len = 0 → hist.pop = none) ∧
    MAX_PLY = 64 ∧
    (∀ (L : ChessLib) (qfuel : Nat) (st : SharedState) (ctx : SearchContext L)
      (depth : Nat) (alpha beta : Int), ctx.histLen < MAX_PLY →
      isHistOverflow (nega_max L qfuel st ctx depth alpha beta) = false) := by
  refine ⟨?_, ?_, rfl, ?_⟩
  · intro hist h
    unfold MoveHistory.push
    rcases hw : hist.arr.writeAt hist.len h with _ | arr1
    · have := writeAt_isSome hist.arr hist.len h
      rw [hw] at this
      simpa using this.symm
    · have := writeAt_isSome hist.arr hist.len h
      rw [hw] at this
      simpa using this.symm
  · intro hist h0
    unfold MoveHistory.pop
    rw [if_pos h0]
  · intro L qfuel st ctx depth alpha beta hlen
    exact nega_max_no_overflow L depth qfuel st ctx alpha beta hlen

/-- Witness for the amended C10: a full 64-entry history rejects a push, a
63-entry one accepts it, a fresh history pops `None`, and the depth-5
chain search over the 63-slot seed is overflow-free. -/
theorem C10_history_safety_witness :
    ((⟨HistArr.zero, 64⟩ : MoveHistory).push 7).isSome = false ∧
    ((⟨HistArr.zero, 63⟩ : MoveHistory).push 7).isSome = true ∧
    MoveHistory.new.pop = none ∧
    isHistOverflow
      (nega_max chainLib 1 ⟨TT.new 4, seededArr⟩ chainCtx 5 MIN_SCORE
        (-MIN_SCORE)) = false := by
  refine ⟨?_, ?_, ?_, ?_⟩
  · have := (C10_history_safety.1 ⟨HistArr.zero, 64⟩ 7)
    rcases h : ((⟨HistArr.zero, 64⟩ : MoveHistory).push 7).isSome with _ | _
    · rfl
    · rw [h] at this
      have h64 := this.mp rfl
      simp [MAX_PLY] at h64
  · exact (C10_history_safety.1 ⟨HistArr.zero, 63⟩ 7).mpr (by decide)
  · exact C10_history_safety.2.1 MoveHistory.new rfl
  · exact C10_history_safety.2.2.2 chainLib 1 ⟨TT.new 4, seededArr⟩ chainCtx 5
      MIN_SCORE (-MIN_SCORE) (by decide)

/-- `MoveScore` (src/search/handler.rs): a considered move together with
the `NegaMaxResult` it obtained. -/
structure MoveScore where
  m : ChessMove
  info : NegaMaxResult
  deriving DecidableEq, Repr

/-- `MoveScore::move_is`. -/
def MoveScore.move_is (self : MoveScore) (m : ChessMove) : Bool :=
  decide (self.m = m)

/-- `SearchResponse` (src/search/handler.rs): nodes searched, max depth
achieved, the best move found (if any), and every considered move. -/
structure SearchResponse where
  nodes : Nat
  depth : Nat
  best_move : Option ChessMove
  all_moves : List MoveScore
  deriving DecidableEq, Repr

/-- `SearchResponse::default()`: no nodes, depth 0, no best move. -/
def SearchResponse.default : SearchResponse :=
  ⟨0, 0, none, []⟩

/-- One line the engine prints to stdout while reporting a search
response. -/
inductive OutLine where
  | info (depth : Nat) (nodes : Nat) (score : Int)
  | bestmove (m : ChessMove)
  deriving DecidableEq, Repr

/-- `Engine::print_search_response` (src/engine.rs): the whole body sits
inside `if let Some(bm) = msg.best_move`; inside it, `find` over
`all_moves` is `unwrap`ped (a panic if the best move is absent from the
list), then one `info` line and one `bestmove` line are printed. There is
no `else` branch. -/
def print_search_response (msg : SearchResponse) :
    Except Panic (List OutLine) :=
  match msg.best_move with
  | some bm =>
      match msg.all_moves.find? (fun ms => ms.move_is bm) with
      | some move_info =>
          Except.ok [OutLine.info msg.depth msg.nodes move_info.info.score,
            OutLine.bestmove bm]
      | none => Except.error Panic.noneUnwrap
  | none => Except.ok []

/-- Claim C5: the claim fails. When `best_move` is `Some bm` (and `bm`
occurs in `all_moves`) the controller does emit an `info` line followed by
a `bestmove` line; but when `best_move` is `None` — e.g. a search
cancelled before any deepening iteration completed, which returns
`SearchResponse::default()` — it prints nothing at all: no `info` line
and no `bestmove 0000` null-move line. -/
theorem C5_no_null_bestmove :
    (∀ msg : SearchResponse, msg.best_move = none →
      print_search_response msg = Except.ok []) ∧
    (∀ (msg : SearchResponse) (bm : ChessMove) (mi : MoveScore),
      msg.best_move = some bm →
      msg.all_moves.find? (fun ms => ms.move_is bm) = some mi →
      print_search_response msg =
        Except.ok [OutLine.info msg.depth msg.nodes mi.info.score,
          OutLine.bestmove bm]) := by
  constructor
  · intro msg h
    simp only [print_search_response, h]
  · intro msg bm mi h hf
    simp only [print_search_response, h, hf]

/-- A response with no best move (the shape a cancelled depth-1 iteration
returns). -/
def c5NoneResp : SearchResponse :=
  ⟨42, 0, none, []⟩

/-- A response whose best move is present in `all_moves`. -/
def c5SomeResp : SearchResponse :=
  ⟨7, 3, some ChessMove.default, [⟨ChessMove.default, ⟨7, -12⟩⟩]⟩

/-- Witness for C5: the `None` response prints no lines (in particular no
`bestmove` line of any kind), while the `Some` response prints the `info`
line then the `bestmove` line. -/
theorem C5_no_null_bestmove_witness :
    print_search_response c5NoneResp = Except.ok [] ∧
    print_search_response c5SomeResp =
      Except.ok [OutLine.info 3 7 (-12), OutLine.bestmove ChessMove.default] :=
  ⟨C5_no_null_bestmove.1 c5NoneResp rfl,
   C5_no_null_bestmove.2 c5SomeResp ChessMove.default
     ⟨ChessMove.default, ⟨7, -12⟩⟩ rfl rfl⟩
